import Mathlib

/-!
# Verification of the version-ordering and tag-selection core

Shallow embedding of `src/package_version_check_mcp/utils/version_parser.py`
(the Version Model: a PEP-440-like parser with `variant` suffixes) and
`src/package_version_check_mcp/get_latest_versions_pkg/utils/version_parser.py`
(the Docker tag parser), together with proofs of the spec's testable
properties.

Strings are modeled as `List Char` (the inputs of interest are ASCII; the
Unicode generalities of Python's `re` class shorthands are out of scope of
the model and never exercised by the repository).
-/

namespace PVC

/-! ## Ordering of comparison keys

Python compares `Version._key` tuples lexicographically.  The components are
tuples of ints, `(str, int)` pairs, strings, and the `Infinity` /
`NegativeInfinity` sentinels from `_structures.py` (not shipped under `src/`;
their semantics is the standard one the spec §3 describes: `Infinity` is
greater than every other value, `NegativeInfinity` smaller).  We model each
comparison axis by an `Ordering`-valued comparator. -/

/-- Comparison value for the pre/post/dev axes (`CmpPrePostDevType`):
either a sentinel or a `(letter, number)` pair. -/
inductive PPD where
  | negInf : PPD
  | pair : String → Nat → PPD
  | inf : PPD
deriving DecidableEq, Repr

/-- Comparison value for the variant axis (`CmpVariantType`): a string or the
`Infinity` sentinel. -/
inductive VarK where
  | str : String → VarK
  | inf : VarK
deriving DecidableEq, Repr

/-- Nat comparator (Python int comparison). -/
def cmpNat (a b : Nat) : Ordering :=
  if a < b then .lt else if b < a then .gt else .eq

/-- Char comparator by code point (Python compares strings by code points). -/
def cmpChar (a b : Char) : Ordering := cmpNat a.toNat b.toNat

/-- Lexicographic comparison of character lists = Python string comparison. -/
def cmpCharList : List Char → List Char → Ordering
  | [], [] => .eq
  | [], _ :: _ => .lt
  | _ :: _, [] => .gt
  | a :: as, b :: bs => (cmpChar a b).then (cmpCharList as bs)

/-- Python string comparison. -/
def cmpStr (a b : String) : Ordering := cmpCharList a.data b.data

/-- Python tuple comparison on int tuples (the release axis). -/
def cmpRelease : List Nat → List Nat → Ordering
  | [], [] => .eq
  | [], _ :: _ => .lt
  | _ :: _, [] => .gt
  | a :: as, b :: bs => (cmpNat a b).then (cmpRelease as bs)

/-- Comparison on a pre/post/dev axis: sentinels at the ends, `(str, int)`
pairs compared as Python tuples. -/
def cmpPPD : PPD → PPD → Ordering
  | .negInf, .negInf => .eq
  | .negInf, _ => .lt
  | _, .negInf => .gt
  | .inf, .inf => .eq
  | _, .inf => .lt
  | .inf, _ => .gt
  | .pair l₁ n₁, .pair l₂ n₂ => (cmpStr l₁ l₂).then (cmpNat n₁ n₂)

/-- Comparison on the variant axis: `Infinity` above every string. -/
def cmpVarK : VarK → VarK → Ordering
  | .inf, .inf => .eq
  | .inf, .str _ => .gt
  | .str _, .inf => .lt
  | .str a, .str b => cmpStr a b

/-! ### Comparator laws -/

/-- The three laws that make an `Ordering`-valued comparator a decidable
linear order: equality reflection, antisymmetry of the orientation, and
transitivity of `.lt`. -/
def IsCmp {α : Type _} (cmp : α → α → Ordering) : Prop :=
  (∀ a b, cmp a b = .eq ↔ a = b) ∧
  (∀ a b, (cmp a b).swap = cmp b a) ∧
  (∀ a b c, cmp a b = .lt → cmp b c = .lt → cmp a c = .lt)

theorem cmpNat_eq_iff {a b : Nat} : cmpNat a b = .eq ↔ a = b := by
  rcases Nat.lt_trichotomy a b with h | h | h
  · simp only [cmpNat, if_pos h]
    constructor
    · intro hh; cases hh
    · intro hh; omega
  · subst h
    simp [cmpNat, Nat.lt_irrefl]
  · simp only [cmpNat, if_neg (Nat.lt_asymm h), if_pos h]
    constructor
    · intro hh; cases hh
    · intro hh; omega

theorem cmpNat_lt_iff {a b : Nat} : cmpNat a b = .lt ↔ a < b := by
  rcases Nat.lt_trichotomy a b with h | h | h
  · simp [cmpNat, h]
  · subst h; simp [cmpNat, Nat.lt_irrefl]
  · simp only [cmpNat, if_neg (Nat.lt_asymm h), if_pos h]
    constructor
    · intro hh; cases hh
    · intro hh; omega

theorem cmpNat_swap (a b : Nat) : (cmpNat a b).swap = cmpNat b a := by
  rcases Nat.lt_trichotomy a b with h | h | h
  · simp only [cmpNat, if_pos h, if_neg (Nat.lt_asymm h)]; rfl
  · subst h; simp only [cmpNat, if_neg (Nat.lt_irrefl a)]; rfl
  · simp only [cmpNat, if_pos h, if_neg (Nat.lt_asymm h)]; rfl

theorem isCmp_cmpNat : IsCmp cmpNat := by
  refine ⟨fun a b => cmpNat_eq_iff, cmpNat_swap, ?_⟩
  intro a b c hab hbc
  rw [cmpNat_lt_iff] at hab hbc ⊢
  omega

theorem char_toNat_inj {a b : Char} (h : a.toNat = b.toNat) : a = b := by
  have h2 := Char.ofNat_toNat a
  rw [h, Char.ofNat_toNat] at h2
  exact h2.symm

theorem isCmp_cmpChar : IsCmp cmpChar := by
  obtain ⟨he, hs, ht⟩ := isCmp_cmpNat
  refine ⟨?_, fun a b => hs _ _, fun a b c => ht _ _ _⟩
  intro a b
  unfold cmpChar
  rw [cmpNat_eq_iff]
  constructor
  · exact char_toNat_inj
  · intro h; rw [h]

/-- Lexicographic product of two comparators (Python tuple comparison,
one component at a time). -/
def prodCmp {α β : Type _} (f : α → α → Ordering) (g : β → β → Ordering) :
    α × β → α × β → Ordering :=
  fun p q => (f p.1 q.1).then (g p.2 q.2)

theorem isCmp_prodCmp {α β : Type _} {f : α → α → Ordering} {g : β → β → Ordering}
    (hf : IsCmp f) (hg : IsCmp g) : IsCmp (prodCmp f g) := by
  unfold prodCmp
  obtain ⟨fe, fs, ft⟩ := hf
  obtain ⟨ge, gs, gt⟩ := hg
  refine ⟨?_, ?_, ?_⟩
  · intro p q
    rw [Ordering.then_eq_eq, fe, ge]
    constructor
    · rintro ⟨h1, h2⟩; exact Prod.ext h1 h2
    · rintro rfl; exact ⟨rfl, rfl⟩
  · intro p q
    rw [Ordering.swap_then, fs, gs]
  · intro p q r h1 h2
    rw [Ordering.then_eq_lt] at h1 h2 ⊢
    rcases h1 with h1 | ⟨h1e, h1g⟩
    · rcases h2 with h2 | ⟨h2e, _⟩
      · exact .inl (ft _ _ _ h1 h2)
      · exact .inl (by rw [fe] at h2e; rwa [← h2e])
    · rcases h2 with h2 | ⟨h2e, h2g⟩
      · rw [fe] at h1e; exact .inl (by rwa [h1e])
      · rw [fe] at h1e h2e
        exact .inr ⟨by rw [fe, h1e, h2e], gt _ _ _ h1g h2g⟩

theorem isCmp_cmpCharList : IsCmp cmpCharList := by
  obtain ⟨ce, cs, ct⟩ := isCmp_cmpChar
  refine ⟨?_, ?_, ?_⟩
  · intro a
    induction a with
    | nil => intro b; cases b <;> simp [cmpCharList]
    | cons x xs ih =>
      intro b; cases b with
      | nil => simp [cmpCharList]
      | cons y ys =>
        simp only [cmpCharList, Ordering.then_eq_eq, ce, ih]
        constructor
        · rintro ⟨rfl, rfl⟩; rfl
        · intro h; cases h; exact ⟨rfl, rfl⟩
  · intro a
    induction a with
    | nil => intro b; cases b <;> simp [cmpCharList, Ordering.swap]
    | cons x xs ih =>
      intro b; cases b with
      | nil => simp [cmpCharList, Ordering.swap]
      | cons y ys => simp only [cmpCharList, Ordering.swap_then, cs, ih]
  · intro a
    induction a with
    | nil =>
      intro b c hab hbc
      cases b <;> cases c <;> simp_all [cmpCharList]
    | cons x xs ih =>
      intro b c hab hbc
      cases b with
      | nil => simp [cmpCharList] at hab
      | cons y ys =>
        cases c with
        | nil => simp [cmpCharList] at hbc
        | cons z zs =>
          simp only [cmpCharList, Ordering.then_eq_lt] at hab hbc ⊢
          rcases hab with h1 | ⟨h1e, h1l⟩
          · rcases hbc with h2 | ⟨h2e, _⟩
            · exact .inl (ct _ _ _ h1 h2)
            · rw [ce] at h2e; exact .inl (h2e ▸ h1)
          · rcases hbc with h2 | ⟨h2e, h2l⟩
            · rw [ce] at h1e; exact .inl (h1e ▸ h2)
            · rw [ce] at h1e h2e
              exact .inr ⟨by rw [ce, h1e, h2e], ih _ _ h1l h2l⟩

theorem isCmp_cmpStr : IsCmp cmpStr := by
  obtain ⟨le, ls, lt⟩ := isCmp_cmpCharList
  refine ⟨?_, fun a b => ls _ _, fun a b c => lt _ _ _⟩
  intro a b
  unfold cmpStr
  rw [le]
  constructor
  · intro h; cases a; cases b; exact congrArg String.mk h
  · rintro rfl; rfl

theorem isCmp_cmpRelease : IsCmp cmpRelease := by
  obtain ⟨ne, ns, nt⟩ := isCmp_cmpNat
  refine ⟨?_, ?_, ?_⟩
  · intro a
    induction a with
    | nil => intro b; cases b <;> simp [cmpRelease]
    | cons x xs ih =>
      intro b; cases b with
      | nil => simp [cmpRelease]
      | cons y ys =>
        simp only [cmpRelease, Ordering.then_eq_eq, ne, ih]
        constructor
        · rintro ⟨rfl, rfl⟩; rfl
        · intro h; cases h; exact ⟨rfl, rfl⟩
  · intro a
    induction a with
    | nil => intro b; cases b <;> simp [cmpRelease, Ordering.swap]
    | cons x xs ih =>
      intro b; cases b with
      | nil => simp [cmpRelease, Ordering.swap]
      | cons y ys => simp only [cmpRelease, Ordering.swap_then, ns, ih]
  · intro a
    induction a with
    | nil =>
      intro b c hab hbc
      cases b <;> cases c <;> simp_all [cmpRelease]
    | cons x xs ih =>
      intro b c hab hbc
      cases b with
      | nil => simp [cmpRelease] at hab
      | cons y ys =>
        cases c with
        | nil => simp [cmpRelease] at hbc
        | cons z zs =>
          simp only [cmpRelease, Ordering.then_eq_lt] at hab hbc ⊢
          rcases hab with h1 | ⟨h1e, h1l⟩
          · rcases hbc with h2 | ⟨h2e, _⟩
            · exact .inl (nt _ _ _ h1 h2)
            · rw [ne] at h2e; exact .inl (h2e ▸ h1)
          · rcases hbc with h2 | ⟨h2e, h2l⟩
            · rw [ne] at h1e; exact .inl (h1e ▸ h2)
            · rw [ne] at h1e h2e
              exact .inr ⟨by rw [ne, h1e, h2e], ih _ _ h1l h2l⟩

theorem isCmp_cmpPPD : IsCmp cmpPPD := by
  obtain ⟨se, ss, st⟩ := isCmp_cmpStr
  obtain ⟨ne, ns, nt⟩ := isCmp_cmpNat
  refine ⟨?_, ?_, ?_⟩
  · intro a b
    cases a <;> cases b <;> try (simp [cmpPPD]; done)
    simp only [cmpPPD, Ordering.then_eq_eq, se, ne]
    constructor
    · rintro ⟨rfl, rfl⟩; rfl
    · intro h; cases h; exact ⟨rfl, rfl⟩
  · intro a b
    cases a <;> cases b <;> try rfl
    simp only [cmpPPD, Ordering.swap_then, ss, ns]
  · intro a b c hab hbc
    cases a <;> cases b <;> cases c <;> simp_all [cmpPPD]
    rw [Ordering.then_eq_lt] at hab hbc ⊢
    rcases hab with h1 | ⟨h1e, h1l⟩
    · rcases hbc with h2 | ⟨h2e, _⟩
      · exact .inl (st _ _ _ h1 h2)
      · rw [se] at h2e; exact .inl (h2e ▸ h1)
    · rcases hbc with h2 | ⟨h2e, h2l⟩
      · rw [se] at h1e; exact .inl (h1e ▸ h2)
      · rw [se] at h1e h2e
        exact .inr ⟨by rw [se, h1e, h2e], nt _ _ _ h1l h2l⟩

theorem isCmp_cmpVarK : IsCmp cmpVarK := by
  obtain ⟨se, ss, st⟩ := isCmp_cmpStr
  refine ⟨?_, ?_, ?_⟩
  · intro a b
    cases a <;> cases b <;> simp_all [cmpVarK, se]
  · intro a b
    cases a <;> cases b <;> simp_all [cmpVarK, ss, Ordering.swap]
  · intro a b c hab hbc
    cases a <;> cases b <;> cases c <;> simp_all [cmpVarK]
    exact st _ _ _ hab hbc

/-! ## The Version data model (`Version.__slots__` fields) -/

/-- The parsed fields of a `Version` object: `_release`, `_pre`, `_post`,
`_dev`, `_variant`. -/
structure Version where
  release : List Nat
  pre : Option (String × Nat)
  post : Option (String × Nat)
  dev : Option (String × Nat)
  variant : Option String
deriving DecidableEq, Repr

/-- The trailing-zero stripping loop at the top of `_cmpkey`
(`while i and release[i - 1] == 0: i -= 1`): all trailing zeros go,
possibly leaving the empty tuple. -/
def trimZeros (r : List Nat) : List Nat := (r.reverse.dropWhile (· == 0)).reverse

/-- The comparison key: the 5-tuple returned by `_cmpkey`. -/
abbrev CmpKey := List Nat × PPD × PPD × PPD × VarK

/-- `_cmpkey(release, pre, post, dev, variant)`. -/
def _cmpkey (release : List Nat) (pre post dev : Option (String × Nat))
    (variant : Option String) : CmpKey :=
  let _release := trimZeros release
  -- `if pre is None and post is None and dev is not None and variant is None`
  let _pre : PPD :=
    if pre = none ∧ post = none ∧ dev ≠ none ∧ variant = none then .negInf
    else match pre with
      | none => .inf
      | some (l, n) => .pair l n
  let _post : PPD := match post with
    | none => .negInf
    | some (l, n) => .pair l n
  let _dev : PPD := match dev with
    | none => .inf
    | some (l, n) => .pair l n
  let _variant : VarK := match variant with
    | none => .inf
    | some s => .str s
  (_release, _pre, _post, _dev, _variant)

/-- `Version._key` (computed lazily in the source; pure here). -/
def Version.key (v : Version) : CmpKey := _cmpkey v.release v.pre v.post v.dev v.variant

/-- Comparison of the 5-tuples, one axis at a time (Python tuple order). -/
def cmpKey : CmpKey → CmpKey → Ordering :=
  prodCmp cmpRelease (prodCmp cmpPPD (prodCmp cmpPPD (prodCmp cmpPPD cmpVarK)))

theorem isCmp_cmpKey : IsCmp cmpKey :=
  isCmp_prodCmp isCmp_cmpRelease (isCmp_prodCmp isCmp_cmpPPD
    (isCmp_prodCmp isCmp_cmpPPD (isCmp_prodCmp isCmp_cmpPPD isCmp_cmpVarK)))

/-- `Version.__lt__` / `__eq__` etc. compare `self._key` with `other._key`. -/
def cmpVer (a b : Version) : Ordering := cmpKey a.key b.key

/-- `a < b` on versions. -/
def vlt (a b : Version) : Prop := cmpVer a b = .lt

/-- `a == b` on versions (key equality). -/
def veq (a b : Version) : Prop := cmpVer a b = .eq

instance (a b : Version) : Decidable (vlt a b) := by unfold vlt; infer_instance

instance (a b : Version) : Decidable (veq a b) := by unfold veq; infer_instance

theorem vlt_trans {a b c : Version} (h₁ : vlt a b) (h₂ : vlt b c) : vlt a c :=
  isCmp_cmpKey.2.2 _ _ _ h₁ h₂

theorem vlt_asymm {a b : Version} (h : vlt a b) : ¬ vlt b a := by
  intro h'
  have hs := isCmp_cmpKey.2.1 a.key b.key
  unfold vlt cmpVer at h h'
  rw [h] at hs
  rw [← hs] at h'
  cases h'

theorem vlt_trichotomy (a b : Version) : vlt a b ∨ veq a b ∨ vlt b a := by
  unfold vlt veq cmpVer
  rcases h : cmpKey a.key b.key with _ | _ | _
  · exact .inl rfl
  · exact .inr (.inl rfl)
  · refine .inr (.inr ?_)
    have := isCmp_cmpKey.2.1 a.key b.key
    rw [h] at this
    exact this.symm

/-! ## The version grammar

`Version.__init__` runs `self._regex.fullmatch(version)` where `_regex` is
`\s*` + `VERSION_PATTERN` + `\s*` compiled with `re.VERBOSE | re.IGNORECASE`.
We embed the match as an explicit candidate search: each optional group and
alternation produces an ordered list of candidates (the order Python's
backtracking engine tries them in) and `fullmatch` succeeds on the first
candidate whose remaining input is all whitespace.

Two classes of regex positions are modeled deterministically because no
alternative branch can ever complete a full match, keeping the candidate
lists small:
* greedy digit runs (`[0-9]+`): giving digits back leaves a digit at the
  next position, and no later grammar element (separators, letter tokens,
  the `-`-introduced variant) nor the trailing `\s*` can consume a digit;
* greedy whitespace (`\s*`) and the possessive `v?+`: giving back whitespace
  leaves a whitespace character that neither `v` nor a digit matches.
The genuinely observable backtracking points — the optional groups
themselves, the post-release alternation, and its non-possessive inner
`[._-]?` — are all represented as ordered candidate lists. -/

/-- Python `\s` (ASCII part). -/
def isSpaceC (c : Char) : Bool :=
  c == ' ' || c == '\t' || c == '\n' || c == '\r' || c == '\x0b' || c == '\x0c'

/-- The separator class `[._-]`. -/
def isSepC (c : Char) : Bool := c == '.' || c == '_' || c == '-'

/-- Maximal digit run (`[0-9]+` greedy, see header comment). -/
def digitRun (s : List Char) : List Char × List Char :=
  (s.takeWhile Char.isDigit, s.dropWhile Char.isDigit)

/-- Python `int()` on a decimal digit string (also `int(number or 0)` when
the digits may be absent: `natOfDigits [] = 0`). -/
def natOfDigits (ds : List Char) : Nat :=
  ds.foldl (fun n c => 10 * n + (c.toNat - 48)) 0

/-- ASCII lowercasing, Python `str.lower` on the matched slices. -/
def lowers (cs : List Char) : List Char := cs.map Char.toLower

/-- Case-insensitive literal token match (the `re.IGNORECASE` flag); returns
the matched original-case slice and the rest. -/
def matchToken (tok : List Char) (s : List Char) : Option (List Char × List Char) :=
  if lowers (s.take tok.length) = tok then some (s.take tok.length, s.drop tok.length) else none

/-- First token of an alternation that matches.  In the pattern every pair of
tokens where one is a prefix of the other lists the longer one first
(`alpha|a`, `beta|b`, `preview|pre`, `milestone|m`, `rev|r`), and falling
back from the longer token to the shorter leaves a letter (`l`, `e`, `v`,
`i`) that no later grammar element consumes, so alternation backtracking to
a later token can never complete a full match and the first match is
decisive. -/
def firstToken (toks : List (List Char)) (s : List Char) : Option (List Char × List Char) :=
  match toks with
  | [] => none
  | t :: ts =>
    match matchToken t s with
    | some r => some r
    | none => firstToken ts s

/-- Possessive optional separator `[._-]?+`: consume if present, never give
back. -/
def sepOpt (s : List Char) : List Char :=
  match s with
  | c :: r => if isSepC c then r else s
  | [] => []

/-- `([0-9]+)?` (greedy; deterministic per the header comment). -/
def numOpt (s : List Char) : Option (List Char) × List Char :=
  let dr := digitRun s
  if dr.1.isEmpty then (none, s) else (some dr.1, dr.2)

/-- A letter/number group as matched (original-case slices of the input). -/
structure RawLN where
  letter : Option (List Char)
  num : Option (List Char)
deriving DecidableEq, Repr

/-- Candidate list of an optional group `(...)?`: the group match (when the
group grammar matches) first, then the empty alternative. -/
def groupCands {α : Type _} (att : Option (α × List Char)) (s : List Char) :
    List (Option α × List Char) :=
  (match att with
   | some (g, r) => [(some g, r)]
   | none => []) ++ [(none, s)]

/-- `pre_l` alternation `alpha|a|beta|b|preview|pre|c|rc|milestone|m`. -/
def preTokens : List (List Char) :=
  ["alpha".data, "a".data, "beta".data, "b".data, "preview".data, "pre".data,
   "c".data, "rc".data, "milestone".data, "m".data]

/-- The pre-release group `[._-]?+ pre_l [._-]?+ ([0-9]+)?` (both separators
possessive). -/
def preAttempt (s : List Char) : Option (RawLN × List Char) :=
  match firstToken preTokens (sepOpt s) with
  | none => none
  | some ls =>
    let ns := numOpt (sepOpt ls.2)
    some (⟨some ls.1, ns.1⟩, ns.2)

def preCands (s : List Char) : List (Option RawLN × List Char) :=
  groupCands (preAttempt s) s

/-- `post_l` alternation `post|rev|r`. -/
def postTokens : List (List Char) := ["post".data, "rev".data, "r".data]

/-- Post-release first alternative `(?:-(?P<post_n1>[0-9]+))`. -/
def postAlt1 (s : List Char) : Option (RawLN × List Char) :=
  match s with
  | c :: r =>
    if c = '-' then
      if (digitRun r).1.isEmpty then none
      else some (⟨none, some (digitRun r).1⟩, (digitRun r).2)
    else none
  | [] => none

/-- Post-release second alternative `[._-]? post_l [._-]? ([0-9]+)?`.

The leading `[._-]?` is effectively deterministic: no post token starts with
a separator, so when the head is a separator the empty alternative dies
immediately.  The inner `[._-]?` is genuinely non-possessive: when it
consumes a separator and the number group then matches nothing, both the
"separator consumed" and the "separator given back" outcomes are viable
candidates, in that (greedy) order.  Candidates that skip an available digit
run leave a digit at the next position and are dead (header comment), so
they are omitted. -/
def postAlt2Tail (l : List Char) : List Char → List (RawLN × List Char)
  | c :: r =>
    if isSepC c then
      if (digitRun r).1.isEmpty then
        [(⟨some l, none⟩, r), (⟨some l, none⟩, c :: r)]
      else
        [(⟨some l, some (digitRun r).1⟩, (digitRun r).2), (⟨some l, none⟩, c :: r)]
    else
      if (digitRun (c :: r)).1.isEmpty then [(⟨some l, none⟩, c :: r)]
      else [(⟨some l, some (digitRun (c :: r)).1⟩, (digitRun (c :: r)).2)]
  | [] => [(⟨some l, none⟩, [])]

def postAlt2 (s : List Char) : List (RawLN × List Char) :=
  match firstToken postTokens (sepOpt s) with
  | none => []
  | some ls => postAlt2Tail ls.1 ls.2

theorem postAlt2Tail_nil (l : List Char) : postAlt2Tail l [] = [(⟨some l, none⟩, [])] := rfl

theorem postAlt2Tail_cons (l : List Char) (c : Char) (r : List Char) :
    postAlt2Tail l (c :: r) =
      if isSepC c then
        if (digitRun r).1.isEmpty then
          [(⟨some l, none⟩, r), (⟨some l, none⟩, c :: r)]
        else
          [(⟨some l, some (digitRun r).1⟩, (digitRun r).2), (⟨some l, none⟩, c :: r)]
      else
        if (digitRun (c :: r)).1.isEmpty then [(⟨some l, none⟩, c :: r)]
        else [(⟨some l, some (digitRun (c :: r)).1⟩, (digitRun (c :: r)).2)] := rfl

/-- The post-release group: first alternative, then second, then empty. -/
def postCands (s : List Char) : List (Option RawLN × List Char) :=
  (match postAlt1 s with
   | some (g, r) => [(some g, r)]
   | none => []) ++
  (postAlt2 s).map (fun gr => (some gr.1, gr.2)) ++
  [(none, s)]

/-- The dev group `[._-]?+ dev [._-]?+ ([0-9]+)?` (both separators
possessive). -/
def devAttempt (s : List Char) : Option (RawLN × List Char) :=
  match matchToken "dev".data (sepOpt s) with
  | none => none
  | some ls =>
    let ns := numOpt (sepOpt ls.2)
    some (⟨some ls.1, ns.1⟩, ns.2)

def devCands (s : List Char) : List (Option RawLN × List Char) :=
  groupCands (devAttempt s) s

theorem dropWhile_length_le {α : Type _} (p : α → Bool) (l : List α) :
    (l.dropWhile p).length ≤ l.length := by
  induction l with
  | nil => simp
  | cons x xs ih =>
    rw [List.dropWhile_cons]
    split
    · exact Nat.le_trans ih (Nat.le_succ _)
    · exact Nat.le_refl _

/-- Maximal run of `[a-z0-9]` under `IGNORECASE` (so also `A-Z`). -/
def alnumRun (s : List Char) : List Char × List Char :=
  (s.takeWhile Char.isAlphanum, s.dropWhile Char.isAlphanum)

/-- The possessive loop `(?:[._-][a-z0-9]+)*+` of the variant group;
structural recursion on a fuel bounded below by the input length (each
iteration consumes at least the separator). -/
def varGroupsF : Nat → List Char → List Char × List Char
  | fuel + 1, c :: r =>
    if isSepC c then
      let g := r.takeWhile Char.isAlphanum
      if g.isEmpty then ([], c :: r)
      else
        let res := varGroupsF fuel (r.dropWhile Char.isAlphanum)
        (c :: (g ++ res.1), res.2)
    else ([], c :: r)
  | _, s => ([], s)

def varGroups (s : List Char) : List Char × List Char := varGroupsF s.length s

theorem varGroupsF_fuel {f₁ f₂ : Nat} : ∀ {s : List Char},
    s.length ≤ f₁ → s.length ≤ f₂ → varGroupsF f₁ s = varGroupsF f₂ s := by
  induction f₁ generalizing f₂ with
  | zero =>
    intro s h1 _
    have : s = [] := List.length_eq_zero.mp (Nat.le_zero.mp h1)
    subst this
    cases f₂ <;> rfl
  | succ f ih =>
    intro s h1 h2
    cases s with
    | nil => cases f₂ <;> rfl
    | cons c r =>
      cases f₂ with
      | zero => simp at h2
      | succ g =>
        show varGroupsF (f + 1) (c :: r) = varGroupsF (g + 1) (c :: r)
        simp only [varGroupsF]
        have hr : r.length ≤ f := by simpa using h1
        have hr2 : r.length ≤ g := by simpa using h2
        have hd := dropWhile_length_le Char.isAlphanum r
        rw [ih (Nat.le_trans hd hr) (Nat.le_trans hd hr2)]

theorem varGroups_eq (c : Char) (r : List Char) :
    varGroups (c :: r) =
      if isSepC c then
        let g := r.takeWhile Char.isAlphanum
        if g.isEmpty then ([], c :: r)
        else
          let res := varGroups (r.dropWhile Char.isAlphanum)
          (c :: (g ++ res.1), res.2)
      else ([], c :: r) := by
  show varGroupsF (r.length + 1) (c :: r) = _
  simp only [varGroupsF]
  have hd := dropWhile_length_le Char.isAlphanum r
  rw [varGroupsF_fuel hd (Nat.le_refl _)]
  rfl

/-- The variant group `-[a-z0-9]+(?:[._-][a-z0-9]+)*+`; yields the raw match
including the leading `-`. -/
def varAttempt (s : List Char) : Option (List Char × List Char) :=
  match s with
  | c :: r =>
    if c = '-' then
      if (alnumRun r).1.isEmpty then none
      else some (c :: ((alnumRun r).1 ++ (varGroups (alnumRun r).2).1),
        (varGroups (alnumRun r).2).2)
    else none
  | [] => none

def varCands (s : List Char) : List (Option (List Char) × List Char) :=
  groupCands (varAttempt s) s

/-- The four raw optional groups of `VERSION_PATTERN` after the release. -/
structure RawGroups where
  pre : Option RawLN
  post : Option RawLN
  dev : Option RawLN
  variant : Option (List Char)
deriving DecidableEq, Repr

def devBlock (s : List Char) : List ((Option RawLN × Option (List Char)) × List Char) :=
  (devCands s).flatMap fun dc => (varCands dc.2).map fun vc => ((dc.1, vc.1), vc.2)

def postBlock (s : List Char) :
    List ((Option RawLN × Option RawLN × Option (List Char)) × List Char) :=
  (postCands s).flatMap fun pc => (devBlock pc.2).map fun dc => ((pc.1, dc.1.1, dc.1.2), dc.2)

/-- All candidate matches of the grammar after the release segment, in the
order the backtracking engine tries them. -/
def tailCands (s : List Char) : List (RawGroups × List Char) :=
  (preCands s).flatMap fun pc =>
    (postBlock pc.2).map fun tc => (⟨pc.1, tc.1.1, tc.1.2.1, tc.1.2.2⟩, tc.2)

/-- `fullmatch` succeeds on the first candidate whose remainder is consumed
by the trailing `\s*`. -/
def firstFull {α : Type _} : List (α × List Char) → Option α
  | [] => none
  | (x, r) :: rest => if r.all isSpaceC then some x else firstFull rest

/-- The possessive loop `(?:\.[0-9]+)*+` of the release segment; structural
recursion on a fuel bounded below by the input length. -/
def parseRelCompsF : Nat → List Char → List Nat × List Char
  | fuel + 1, c :: r =>
    if c = '.' then
      let ds := r.takeWhile Char.isDigit
      if ds.isEmpty then ([], c :: r)
      else
        let res := parseRelCompsF fuel (r.dropWhile Char.isDigit)
        (natOfDigits ds :: res.1, res.2)
    else ([], c :: r)
  | _, s => ([], s)

def parseRelComps (s : List Char) : List Nat × List Char := parseRelCompsF s.length s

theorem parseRelCompsF_fuel {f₁ f₂ : Nat} : ∀ {s : List Char},
    s.length ≤ f₁ → s.length ≤ f₂ → parseRelCompsF f₁ s = parseRelCompsF f₂ s := by
  induction f₁ generalizing f₂ with
  | zero =>
    intro s h1 _
    have : s = [] := List.length_eq_zero.mp (Nat.le_zero.mp h1)
    subst this
    cases f₂ <;> rfl
  | succ f ih =>
    intro s h1 h2
    cases s with
    | nil => cases f₂ <;> rfl
    | cons c r =>
      cases f₂ with
      | zero => simp at h2
      | succ g =>
        show parseRelCompsF (f + 1) (c :: r) = parseRelCompsF (g + 1) (c :: r)
        simp only [parseRelCompsF]
        have hr : r.length ≤ f := by simpa using h1
        have hr2 : r.length ≤ g := by simpa using h2
        have hd := dropWhile_length_le Char.isDigit r
        rw [ih (Nat.le_trans hd hr) (Nat.le_trans hd hr2)]

theorem parseRelComps_eq (c : Char) (r : List Char) :
    parseRelComps (c :: r) =
      if c = '.' then
        let ds := r.takeWhile Char.isDigit
        if ds.isEmpty then ([], c :: r)
        else
          let res := parseRelComps (r.dropWhile Char.isDigit)
          (natOfDigits ds :: res.1, res.2)
      else ([], c :: r) := by
  show parseRelCompsF (r.length + 1) (c :: r) = _
  simp only [parseRelCompsF]
  have hd := dropWhile_length_le Char.isDigit r
  rw [parseRelCompsF_fuel hd (Nat.le_refl _)]
  rfl

/-- The release segment `[0-9]+(?:\.[0-9]+)*+`, with
`tuple(map(int, ....split(".")))` applied. -/
def parseRelease (s : List Char) : Option (List Nat × List Char) :=
  let dr := digitRun s
  if dr.1.isEmpty then none
  else
    let mr := parseRelComps dr.2
    some (natOfDigits dr.1 :: mr.1, mr.2)

/-! ### `_parse_letter_version` and `Version.__init__` -/

/-- `_LETTER_NORMALIZATION`. -/
def _LETTER_NORMALIZATION : List (String × String) :=
  [("alpha", "a"), ("beta", "b"), ("c", "rc"), ("pre", "rc"), ("preview", "rc"),
   ("rev", "post"), ("r", "post"), ("milestone", "m"), ("m", "m")]

/-- `_LETTER_NORMALIZATION.get(letter, letter)`. -/
def normLetter (l : String) : String :=
  match _LETTER_NORMALIZATION.lookup l with
  | some x => x
  | none => l

/-- The `if number:` fallback branch of `_parse_letter_version` (implicit
post-release syntax). -/
def fallbackNumber (number : Option (List Char)) : Option (String × Nat) :=
  match number with
  | some ds => if ds.isEmpty then none else some ("post", natOfDigits ds)
  | none => none

/-- `_parse_letter_version(letter, number)`. -/
def _parse_letter_version (letter : Option (List Char)) (number : Option (List Char)) :
    Option (String × Nat) :=
  match letter with
  | some l =>
    if l.isEmpty then fallbackNumber number
    else some (normLetter (String.mk (lowers l)), natOfDigits (number.getD []))
  | none => fallbackNumber number

/-- `self._variant[1:]` when the raw variant starts with `-`. -/
def stripDash (cs : List Char) : List Char :=
  match cs with
  | '-' :: r => r
  | _ => cs

/-- The body of `Version.__init__` on the matched groups.  For the post
group, `post_n1 or post_n2` is the single number slot of the alternative
that matched (the two alternatives of one alternation can never both be
set). -/
def mkVersion (rel : List Nat) (g : RawGroups) : Version where
  release := rel
  pre := _parse_letter_version (g.pre.bind (·.letter)) (g.pre.bind (·.num))
  post := _parse_letter_version (g.post.bind (·.letter)) (g.post.bind (·.num))
  dev := _parse_letter_version (g.dev.bind (·.letter)) (g.dev.bind (·.num))
  variant := g.variant.map (fun cs => String.mk (stripDash cs))

/-- The possessive `v?+` under `IGNORECASE`. -/
def vOpt (s : List Char) : List Char :=
  match s with
  | c :: r => if c == 'v' || c == 'V' then r else c :: r
  | [] => []

/-- `parse` / `Version(version)`: `none` models the `InvalidVersion` raise. -/
def parseChars (s : List Char) : Option Version :=
  match parseRelease (vOpt (s.dropWhile isSpaceC)) with
  | none => none
  | some rel =>
    match firstFull (tailCands rel.2) with
    | some g => some (mkVersion rel.1 g)
    | none => none

def parse (s : String) : Option Version := parseChars s.data

/-! ### `Version.__str__` -/

/-- `str(n)` for a natural number. -/
def natRepr (n : Nat) : List Char :=
  if n = 0 then ['0'] else (Nat.digits 10 n).reverse.map (fun d => Char.ofNat (48 + d))

/-- `".".join(map(str, self.release))`. -/
def renderRelease : List Nat → List Char
  | [] => []
  | x :: xs => natRepr x ++ xs.flatMap (fun y => '.' :: natRepr y)

/-- `Version.__str__`. -/
def render (v : Version) : List Char :=
  renderRelease v.release ++
  (match v.pre with | some (l, n) => l.data ++ natRepr n | none => []) ++
  (match v.post with | some (_, n) => ".post".data ++ natRepr n | none => []) ++
  (match v.dev with | some (_, n) => ".dev".data ++ natRepr n | none => []) ++
  (match v.variant with | some s => '-' :: s.data | none => [])

/-! ### Axis views of the comparison key -/

/-- The `_pre` axis value computed by `_cmpkey`. -/
def preAxis (v : Version) : PPD :=
  if v.pre = none ∧ v.post = none ∧ v.dev ≠ none ∧ v.variant = none then .negInf
  else match v.pre with
    | none => .inf
    | some (l, n) => .pair l n

/-- The `_post` axis value computed by `_cmpkey`. -/
def postAxis (v : Version) : PPD :=
  match v.post with
  | none => .negInf
  | some (l, n) => .pair l n

/-- The `_dev` axis value computed by `_cmpkey`. -/
def devAxis (v : Version) : PPD :=
  match v.dev with
  | none => .inf
  | some (l, n) => .pair l n

/-- The `_variant` axis value computed by `_cmpkey`. -/
def varAxis (v : Version) : VarK :=
  match v.variant with
  | none => .inf
  | some s => .str s

theorem key_axes (v : Version) :
    v.key = (trimZeros v.release, preAxis v, postAxis v, devAxis v, varAxis v) := rfl

theorem vlt_expand (u v : Version) :
    vlt u v ↔
      (cmpRelease (trimZeros u.release) (trimZeros v.release)).then
        ((cmpPPD (preAxis u) (preAxis v)).then
          ((cmpPPD (postAxis u) (postAxis v)).then
            ((cmpPPD (devAxis u) (devAxis v)).then
              (cmpVarK (varAxis u) (varAxis v))))) = .lt := Iff.rfl

theorem veq_expand (u v : Version) :
    veq u v ↔
      (cmpRelease (trimZeros u.release) (trimZeros v.release)).then
        ((cmpPPD (preAxis u) (preAxis v)).then
          ((cmpPPD (postAxis u) (postAxis v)).then
            ((cmpPPD (devAxis u) (devAxis v)).then
              (cmpVarK (varAxis u) (varAxis v))))) = .eq := Iff.rfl

theorem cmpRelease_refl (r : List Nat) : cmpRelease r r = .eq :=
  (isCmp_cmpRelease.1 r r).mpr rfl

theorem cmpPPD_refl (x : PPD) : cmpPPD x x = .eq :=
  (isCmp_cmpPPD.1 x x).mpr rfl

theorem preAxis_of_pre {v : Version} {l : String} {n : Nat} (h : v.pre = some (l, n)) :
    preAxis v = .pair l n := by
  simp [preAxis, h]

theorem preAxis_of_nodev {v : Version} (h1 : v.pre = none) (h2 : v.dev = none) :
    preAxis v = .inf := by
  simp [preAxis, h1, h2]

theorem preAxis_of_post {v : Version} {q : String × Nat} (h1 : v.pre = none)
    (h2 : v.post = some q) : preAxis v = .inf := by
  simp [preAxis, h1, h2]

theorem preAxis_devonly {v : Version} (h1 : v.pre = none) (h2 : v.post = none)
    (h3 : v.dev ≠ none) (h4 : v.variant = none) : preAxis v = .negInf := by
  simp [preAxis, h1, h2, h3, h4]

theorem preAxis_of_variant {v : Version} {s : String} (h1 : v.pre = none)
    (h4 : v.variant = some s) : preAxis v = .inf := by
  simp [preAxis, h1, h4]

/-! ## Claim theorems: ordering claims -/

/-- Both versions parsed and compared (used to state concrete ordering
facts; `none` when either side is rejected). -/
def cmpParse (s t : String) : Option Ordering :=
  match parse s, parse t with
  | some a, some b => some (cmpVer a b)
  | _, _ => none

/-- **C1.** The Version Model's comparison is a total order (transitive,
asymmetric, trichotomous with respect to key equality) and, among versions
sharing the same trailing-zero-trimmed release segment: a dev-only version
sorts before every pre-release; pre-release letter classes are ordered `a <
b < m < rc`, each with a numeric sub-order; the final (no pre-release, no
dev marker) sorts after every pre-release; a post-release sorts after the
final; and the literal chain `1.0.dev1 < 1.0a1 < 1.0b1 < 1.0m1 < 1.0rc1 <
1.0 < 1.0.post1` holds under `parse`. -/
theorem C1_total_order_and_chain :
    (∀ u v w : Version, vlt u v → vlt v w → vlt u w) ∧
    (∀ u v : Version, vlt u v → ¬ vlt v u) ∧
    (∀ u v : Version, vlt u v ∨ veq u v ∨ vlt v u) ∧
    (∀ u v : Version, trimZeros u.release = trimZeros v.release →
      u.dev ≠ none → u.pre = none → u.post = none → u.variant = none →
      v.pre ≠ none → vlt u v) ∧
    (∀ u v : Version, ∀ l₁ l₂ : String, ∀ n₁ n₂ : Nat,
      trimZeros u.release = trimZeros v.release →
      u.pre = some (l₁, n₁) → v.pre = some (l₂, n₂) →
      ((l₁, l₂) ∈ ([("a", "b"), ("a", "m"), ("a", "rc"), ("b", "m"), ("b", "rc"),
        ("m", "rc")] : List (String × String)) ∨ (l₁ = l₂ ∧ n₁ < n₂)) →
      vlt u v) ∧
    (∀ u v : Version, trimZeros u.release = trimZeros v.release →
      u.pre = none → u.dev = none → v.pre ≠ none → vlt v u) ∧
    (∀ u v : Version, trimZeros u.release = trimZeros v.release →
      u.pre = none → u.dev = none → u.post = none →
      v.pre = none → v.post ≠ none → vlt u v) ∧
    (cmpParse "1.0.dev1" "1.0a1" = some .lt ∧ cmpParse "1.0a1" "1.0b1" = some .lt ∧
     cmpParse "1.0b1" "1.0m1" = some .lt ∧ cmpParse "1.0m1" "1.0rc1" = some .lt ∧
     cmpParse "1.0rc1" "1.0" = some .lt ∧ cmpParse "1.0" "1.0.post1" = some .lt) := by
  refine ⟨fun u v w => vlt_trans, fun u v => vlt_asymm, vlt_trichotomy, ?_, ?_, ?_, ?_,
    by decide, by decide, by decide, by decide, by decide, by decide⟩
  · -- dev-only before every pre-release
    intro u v htrim hdev hpre hpost hvar hvpre
    obtain ⟨⟨l, n⟩, hv⟩ := Option.ne_none_iff_exists'.mp hvpre
    rw [vlt_expand, htrim, cmpRelease_refl,
      preAxis_devonly hpre hpost hdev hvar, preAxis_of_pre hv]
    rfl
  · -- letter classes a < b < m < rc with numeric sub-order
    intro u v l₁ l₂ n₁ n₂ htrim hu hv hord
    rw [vlt_expand, htrim, cmpRelease_refl, preAxis_of_pre hu, preAxis_of_pre hv]
    show (cmpPPD (.pair l₁ n₁) (.pair l₂ n₂)).then _ = .lt
    have hlt : cmpPPD (.pair l₁ n₁) (.pair l₂ n₂) = .lt := by
      show (cmpStr l₁ l₂).then (cmpNat n₁ n₂) = .lt
      rcases hord with hmem | ⟨rfl, hn⟩
      · fin_cases hmem <;> rfl
      · rw [(isCmp_cmpStr.1 _ _).mpr rfl]
        show cmpNat n₁ n₂ = .lt
        exact cmpNat_lt_iff.mpr hn
    rw [hlt]
    rfl
  · -- the final after every pre-release
    intro u v htrim hpre hdev hvpre
    obtain ⟨⟨l, n⟩, hv⟩ := Option.ne_none_iff_exists'.mp hvpre
    rw [vlt_expand, htrim.symm, cmpRelease_refl, preAxis_of_pre hv,
      preAxis_of_nodev hpre hdev]
    rfl
  · -- a post-release after the final
    intro u v htrim hpre hdev hpost hvpre hvpost
    obtain ⟨⟨l, n⟩, hv⟩ := Option.ne_none_iff_exists'.mp hvpost
    rw [vlt_expand, htrim, cmpRelease_refl, preAxis_of_nodev hpre hdev,
      preAxis_of_post hvpre hv]
    show (cmpPPD .inf .inf).then _ = .lt
    rw [cmpPPD_refl]
    show (cmpPPD (postAxis u) (postAxis v)).then _ = .lt
    unfold postAxis
    rw [hpost, hv]
    rfl

/-- Witness for C1: its general clauses applied at concrete versions. -/
theorem C1_total_order_and_chain_witness :
    vlt ⟨[1], none, none, some ("dev", 1), none⟩ ⟨[1, 0], some ("a", 1), none, none, none⟩ ∧
    vlt ⟨[1, 0], some ("b", 2), none, none, none⟩ ⟨[1], some ("m", 0), none, none, none⟩ ∧
    vlt ⟨[2], some ("rc", 3), none, none, none⟩ ⟨[2], none, none, none, none⟩ ∧
    vlt ⟨[2], none, none, none, none⟩ ⟨[2], none, some ("post", 1), none, none⟩ := by
  refine ⟨?_, ?_, ?_, ?_⟩
  · exact C1_total_order_and_chain.2.2.2.1 _ _ rfl (by simp) rfl rfl rfl (by simp)
  · exact C1_total_order_and_chain.2.2.2.2.1 _ _ "b" "m" 2 0 rfl rfl rfl (by simp)
  · exact C1_total_order_and_chain.2.2.2.2.2.1 _ _ rfl rfl rfl (by simp)
  · exact C1_total_order_and_chain.2.2.2.2.2.2.1 _ _ rfl rfl rfl rfl rfl (by simp)

/-- **C2 counterexample.** The claim says a variant-bearing build ranks
*below* the corresponding pre-release and *above* the final; the code orders
`1.0-android` *above* `1.0a1` (`gt`) and *below* `1.0` (`lt`). -/
theorem C2_counterexample :
    cmpParse "1.0-android" "1.0a1" = some .gt ∧
    cmpParse "1.0-android" "1.0" = some .lt := by decide

/-- **C2 amended.** For every two parsed versions sharing the same
(trimmed) release segment, a variant-only build ranks *above* any
corresponding pre-release of that release and *below* any final
(suffix-free) version of that release. -/
theorem C2_amended_variant_between_pre_and_final :
    ∀ u v f : Version, ∀ s : String, ∀ p : String × Nat,
      trimZeros u.release = trimZeros v.release →
      trimZeros u.release = trimZeros f.release →
      u.variant = some s → u.pre = none → u.post = none → u.dev = none →
      v.pre = some p → v.post = none → v.dev = none → v.variant = none →
      f.pre = none → f.post = none → f.dev = none → f.variant = none →
      vlt v u ∧ vlt u f := by
  intro u v f s p htv htf huv hup huq hud hvp hvq hvd hvv hfp hfq hfd hfv
  constructor
  · rw [vlt_expand, htv.symm, cmpRelease_refl,
      @preAxis_of_pre _ p.1 p.2 (by rw [hvp]),
      preAxis_of_variant hup huv]
    rfl
  · rw [vlt_expand, htf, cmpRelease_refl, preAxis_of_variant hup huv,
      preAxis_of_nodev hfp hfd]
    show (cmpPPD .inf .inf).then _ = .lt
    rw [cmpPPD_refl]
    show (cmpPPD (postAxis u) (postAxis f)).then _ = .lt
    unfold postAxis
    rw [huq, hfq]
    show (cmpPPD .negInf .negInf).then _ = .lt
    rw [cmpPPD_refl]
    show (cmpPPD (devAxis u) (devAxis f)).then _ = .lt
    unfold devAxis
    rw [hud, hfd]
    show (cmpPPD .inf .inf).then _ = .lt
    rw [cmpPPD_refl]
    show cmpVarK (varAxis u) (varAxis f) = .lt
    unfold varAxis
    rw [huv, hfv]
    rfl

/-- Witness for the amended C2 at concrete versions. -/
theorem C2_amended_variant_between_pre_and_final_witness :
    vlt ⟨[1, 0], some ("rc", 1), none, none, none⟩ ⟨[1, 0], none, none, none, some "android"⟩ ∧
    vlt ⟨[1, 0], none, none, none, some "android"⟩ ⟨[1, 0], none, none, none, none⟩ := by
  have h := C2_amended_variant_between_pre_and_final
    ⟨[1, 0], none, none, none, some "android"⟩ ⟨[1, 0], some ("rc", 1), none, none, none⟩
    ⟨[1, 0], none, none, none, none⟩ "android" ("rc", 1)
    rfl rfl rfl rfl rfl rfl rfl rfl rfl rfl rfl rfl rfl rfl
  exact ⟨h.1, h.2⟩

/-- **C3 counterexample.** `1.0.dev1` and `1.0.dev1-alpine` parse to
versions equal on release, pre, post and dev, yet the version *without* a
variant sorts *before* (not after) the variant-bearing one, because the
dev-only `NegativeInfinity` trick in `_cmpkey` fires only when no variant is
present. -/
theorem C3_counterexample :
    parse "1.0.dev1" = some ⟨[1, 0], none, none, some ("dev", 1), none⟩ ∧
    parse "1.0.dev1-alpine" = some ⟨[1, 0], none, none, some ("dev", 1), some "alpine"⟩ ∧
    vlt ⟨[1, 0], none, none, some ("dev", 1), none⟩
      ⟨[1, 0], none, none, some ("dev", 1), some "alpine"⟩ := by decide

/-- **C3 amended.** Among parsed versions equal on release (trimmed), pre,
post and dev, *except in the dev-only configuration* (pre and post absent
while dev is present), a version with no variant sorts after any version
with a variant; variant strings compare lexicographically against each
other (no exception needed); and the two concrete chains
`1.0-alpine < 1.0-android < 1.0` and `1.0rc1 < 1.0-android < 1.0.post1`
hold. -/
theorem C3_amended_variant_tiebreak :
    (∀ u v : Version, ∀ s : String,
      trimZeros u.release = trimZeros v.release → u.pre = v.pre → u.post = v.post →
      u.dev = v.dev → ¬(u.pre = none ∧ u.post = none ∧ u.dev ≠ none) →
      u.variant = none → v.variant = some s → vlt v u) ∧
    (∀ u v : Version, ∀ s₁ s₂ : String,
      trimZeros u.release = trimZeros v.release → u.pre = v.pre → u.post = v.post →
      u.dev = v.dev → u.variant = some s₁ → v.variant = some s₂ →
      cmpStr s₁ s₂ = .lt → vlt u v) ∧
    (cmpParse "1.0-alpine" "1.0-android" = some .lt ∧
     cmpParse "1.0-android" "1.0" = some .lt) ∧
    (cmpParse "1.0rc1" "1.0-android" = some .lt ∧
     cmpParse "1.0-android" "1.0.post1" = some .lt) := by
  refine ⟨?_, ?_, by decide, by decide, by decide⟩
  · intro u v s htrim hpre hpost hdev hnotdevonly huv hvv
    have hpreAx : preAxis v = preAxis u := by
      unfold preAxis
      rw [hpre.symm, hpost.symm, hdev.symm, huv, hvv]
      have hcu : ¬(u.pre = none ∧ u.post = none ∧ u.dev ≠ none ∧ (none : Option String) = none) := by
        intro ⟨h1, h2, h3, _⟩; exact hnotdevonly ⟨h1, h2, h3⟩
      rw [if_neg hcu, if_neg (by rintro ⟨_, _, _, h⟩; cases h)]
    rw [vlt_expand, htrim.symm, cmpRelease_refl, hpreAx, cmpPPD_refl]
    show (cmpPPD (postAxis v) (postAxis u)).then _ = .lt
    unfold postAxis
    rw [hpost]
    rw [cmpPPD_refl]
    show (cmpPPD (devAxis v) (devAxis u)).then _ = .lt
    unfold devAxis
    rw [hdev]
    rw [cmpPPD_refl]
    show cmpVarK (varAxis v) (varAxis u) = .lt
    unfold varAxis
    rw [huv, hvv]
    rfl
  · intro u v s₁ s₂ htrim hpre hpost hdev huv hvv hs
    have hpreAx : preAxis u = preAxis v := by
      unfold preAxis
      rw [hpre, hpost, hdev, huv, hvv]
      rw [if_neg (by rintro ⟨_, _, _, h⟩; cases h),
        if_neg (by rintro ⟨_, _, _, h⟩; cases h)]
    rw [vlt_expand, htrim, cmpRelease_refl, hpreAx, cmpPPD_refl]
    show (cmpPPD (postAxis u) (postAxis v)).then _ = .lt
    unfold postAxis
    rw [hpost]
    rw [cmpPPD_refl]
    show (cmpPPD (devAxis u) (devAxis v)).then _ = .lt
    unfold devAxis
    rw [hdev]
    rw [cmpPPD_refl]
    show cmpVarK (varAxis u) (varAxis v) = .lt
    unfold varAxis
    rw [huv, hvv]
    exact hs

/-- Witness for the amended C3 at concrete versions. -/
theorem C3_amended_variant_tiebreak_witness :
    vlt ⟨[1, 0], none, some ("post", 1), none, some "alpine"⟩
      ⟨[1, 0], none, some ("post", 1), none, none⟩ ∧
    vlt ⟨[1, 0], none, none, none, some "alpine"⟩ ⟨[1, 0], none, none, none, some "android"⟩ := by
  constructor
  · exact C3_amended_variant_tiebreak.1
      ⟨[1, 0], none, some ("post", 1), none, none⟩
      ⟨[1, 0], none, some ("post", 1), none, some "alpine"⟩ "alpine"
      rfl rfl rfl rfl (by rintro ⟨_, h, _⟩; cases h) rfl rfl
  · exact C3_amended_variant_tiebreak.2.1
      ⟨[1, 0], none, none, none, some "alpine"⟩
      ⟨[1, 0], none, none, none, some "android"⟩ "alpine" "android"
      rfl rfl rfl rfl rfl rfl rfl

/-! ## C6: trailing release zeros -/

theorem dropWhile_idem {α : Type _} (p : α → Bool) (l : List α) :
    (l.dropWhile p).dropWhile p = l.dropWhile p := by
  induction l with
  | nil => simp
  | cons x xs ih =>
    by_cases h : p x <;> simp [List.dropWhile_cons, h, ih]

theorem trimZeros_idem (r : List Nat) : trimZeros (trimZeros r) = trimZeros r := by
  unfold trimZeros
  rw [List.reverse_reverse, dropWhile_idem]

theorem trimZeros_append_zeros (r : List Nat) (k : Nat) :
    trimZeros (r ++ List.replicate k 0) = trimZeros r := by
  unfold trimZeros
  rw [List.reverse_append, List.reverse_replicate,
    List.dropWhile_append_of_pos (by intro a ha; simp [List.eq_of_mem_replicate ha])]

/-- **C6.** Trailing release zeros are preserved for display but
insignificant for comparison: `parse "1.0.0.0"` stores release `(1,0,0,0)`
yet compares equal to `parse "1.0"`; in general every comparison factors
through trailing-zero-trimmed release segments on both sides, and appending
zeros to the release never changes any comparison. -/
theorem C6_trailing_zeros_insignificant :
    ((parse "1.0.0.0").map Version.release = some [1, 0, 0, 0] ∧
     cmpParse "1.0.0.0" "1.0" = some .eq) ∧
    (∀ u v : Version,
      cmpVer u v =
        cmpVer { u with release := trimZeros u.release }
          { v with release := trimZeros v.release }) ∧
    (∀ (u v : Version) (k : Nat),
      cmpVer { u with release := u.release ++ List.replicate k 0 } v = cmpVer u v ∧
      cmpVer v { u with release := u.release ++ List.replicate k 0 } = cmpVer v u ∧
      veq u { u with release := u.release ++ List.replicate k 0 }) := by
  have keyTrim : ∀ u : Version, Version.key { u with release := trimZeros u.release } = u.key := by
    intro u
    rw [key_axes, key_axes]
    simp only [trimZeros_idem]
    rfl
  have keyPad : ∀ (u : Version) (k : Nat),
      Version.key { u with release := u.release ++ List.replicate k 0 } = u.key := by
    intro u k
    rw [key_axes, key_axes]
    simp only [trimZeros_append_zeros]
    rfl
  refine ⟨by decide, ?_, ?_⟩
  · intro u v
    unfold cmpVer
    rw [keyTrim, keyTrim]
  · intro u v k
    unfold veq cmpVer
    rw [keyPad]
    exact ⟨rfl, rfl, (isCmp_cmpKey.1 _ _).mpr rfl⟩

/-! ## The Docker tag parser
(`get_latest_versions_pkg/utils/version_parser.py`) -/

/-- `\w` (ASCII part). -/
def isWordC (c : Char) : Bool := c.isAlphanum || c == '_'

/-- `[a-f0-9]` under `re.IGNORECASE` (so also `A-F`). -/
def isHexC (c : Char) : Bool :=
  c.isDigit || ('a' ≤ c && c ≤ 'f') || ('A' ≤ c && c ≤ 'F')

/-- The moving-reference set `('latest', 'stable', 'edge', 'nightly', 'dev',
'master', 'main')`. -/
def specialTags : List (List Char) :=
  ["latest".data, "stable".data, "edge".data, "nightly".data, "dev".data,
   "master".data, "main".data]

/-- `re.sub(r'^v', '', tag)`: remove one leading lower-case `v` (this one is
not case-insensitive). -/
def stripV (s : List Char) : List Char :=
  match s with
  | 'v' :: r => r
  | _ => s

/-- `clean_tag.split('-', 1)` as a `(prefix, suffix)` pair; when no `-`
occurs the suffix is `''` (Python: `parts[1] if len(parts) > 1 else ''`). -/
def splitDash : List Char → List Char × List Char
  | [] => ([], [])
  | c :: r =>
    if c = '-' then ([], r)
    else
      let res := splitDash r
      (c :: res.1, res.2)

/-- The `(?:\.\d+)*` loop of the tag version pattern, keeping the raw digit
groups; structural recursion on a fuel bounded below by the input length. -/
def dotDigitGroupsF : Nat → List Char → List (List Char) × List Char
  | fuel + 1, c :: r =>
    if c = '.' then
      let ds := r.takeWhile Char.isDigit
      if ds.isEmpty then ([], c :: r)
      else
        let res := dotDigitGroupsF fuel (r.dropWhile Char.isDigit)
        (ds :: res.1, res.2)
    else ([], c :: r)
  | _, s => ([], s)

def dotDigitGroups (s : List Char) : List (List Char) × List Char :=
  dotDigitGroupsF s.length s

/-- The match of `^(?P<version>\d+(?:\.\d+)*)(?P<prerelease>\w*)$` against
the pre-dash prefix, as the list of version digit groups plus the prerelease
slice.  Backtracking analysis: the trailing `\w*$` forces everything after
the version group to be word characters; giving digits back from a digit run
leaves a digit (itself a word character), and dropping a whole `\.\d+`
iteration leaves a `.` (not a word character) heading a nonempty remainder —
so the match succeeds iff the maximal-munch remainder is all word
characters, with the maximal version group as the result. -/
def matchVersionRe (p : List Char) : Option (List (List Char) × List Char) :=
  let ds := p.takeWhile Char.isDigit
  if ds.isEmpty then none
  else
    let res := dotDigitGroups (p.dropWhile Char.isDigit)
    if res.2.all isWordC then some (ds :: res.1, res.2) else none

/-- The component dictionary returned by `parse_docker_tag`. -/
structure DockerTag where
  release : List Nat
  suffix : String
  prerelease : String
  original : String
deriving DecidableEq, Repr

/-- `parse_docker_tag(tag)`; `none` models the `return None` paths (the
function is total — the only `int()` calls run on nonempty digit strings, so
the `except ValueError` branch is dead). -/
def parse_docker_tag (tag : String) : Option DockerTag :=
  let t := tag.data
  if t.isEmpty then none
  else if lowers t ∈ specialTags then none
  else if (7 ≤ t.length ∧ t.length ≤ 40 ∧ t.all isHexC = true) ∧
      ¬ t.all Char.isDigit = true then none
  else
    let pr := splitDash (stripV t)
    match matchVersionRe pr.1 with
    | none => none
    | some (vparts, prerelease) =>
      -- `'.' not in version_str` iff there is a single digit group
      if vparts.length = 1 ∧ 1000 ≤ natOfDigits (vparts.headD []) then none
      else some {
        release := vparts.map natOfDigits
        suffix := String.mk pr.2
        prerelease := String.mk prerelease
        original := tag }

/-! ## The Tag Selection Engine (spec-modelled)

`determine_latest_image_tag` lives in
`get_latest_versions_pkg/fetchers/docker.py`, which is not among the shipped
source files (only its unit tests and its caller in `fetchers/helm.py` are).
The pipeline below is modelled from spec §4.2 and the §8 edge-policy
table. -/

/-- Modelled from the spec: step 3 of §4.2 — the hint is split "the same
way" as a tag into release parts and suffix; this is the hint's suffix. -/
def hintSuffix (h : String) : String := String.mk (splitDash (stripV h.data)).2

/-- Modelled from the spec: whether the hint carries a recognized prerelease
marker (step 3 of §4.2). -/
def hintHasPre (h : String) : Bool :=
  match matchVersionRe (splitDash (stripV h.data)).1 with
  | some res => !res.2.isEmpty
  | none => false

/-- Zero-padding for element-wise release comparison (§4.2 step 5: "shorter
tuples padded conceptually with zeros"). -/
def padZeros (r : List Nat) (n : Nat) : List Nat := r ++ List.replicate (n - r.length) 0

/-- Modelled from the spec: §4.2 step 5 ranking comparison. -/
def cmpPadRel (a b : List Nat) : Ordering :=
  cmpRelease (padZeros a (max a.length b.length)) (padZeros b (max a.length b.length))

/-- Modelled from the spec: §4.2 step 5 — is `cand` ranked above `cur`?
Greater padded release wins; on ties a non-prerelease beats a prerelease,
"else by the Version Model's full ordering". -/
def betterTag (cur cand : DockerTag) : Bool :=
  match cmpPadRel cur.release cand.release with
  | .lt => true
  | .gt => false
  | .eq =>
    if cur.prerelease == "" && !(cand.prerelease == "") then false
    else if !(cur.prerelease == "") && cand.prerelease == "" then true
    else
      match parse cur.original, parse cand.original with
      | some a, some b => cmpVer a b == .lt
      | _, _ => false

def pickBest (l : List DockerTag) : Option DockerTag :=
  l.foldl (fun acc p =>
    match acc with
    | none => some p
    | some q => if betterTag q p then some p else some q) none

/-- Modelled from the spec: `selectBestTag(tags, hint)` — the Tag Selection
Engine `determine_latest_image_tag`, absent from the shipped sources;
pipeline steps 1–6 of §4.2: parse/fiter noise tags, restrict to the hint's
suffix family (exact match) or prefer suffix-less tags when no hint is
given, exclude prereleases unless the hint carries a prerelease marker, rank
and return the original tag string, `none` when nothing survives. -/
def selectBestTag (tags : List String) (hint : Option String) : Option String :=
  let cands := tags.filterMap parse_docker_tag
  match hint with
  | some h =>
    let elig := cands.filter (fun p => p.suffix == hintSuffix h)
    let elig2 := if hintHasPre h then elig else elig.filter (fun p => p.prerelease == "")
    (pickBest elig2).map (·.original)
  | none =>
    let noSuf := cands.filter (fun p => p.suffix == "")
    let pool := if noSuf.isEmpty then cands else noSuf
    (pickBest pool).map (·.original)

/-! ## Claim theorems: the tag parser and the selection engine -/

theorem takeWhile_of_all {α : Type _} {p : α → Bool} {l : List α} (h : l.all p = true) :
    l.takeWhile p = l := by
  induction l with
  | nil => rfl
  | cons x xs ih =>
    simp only [List.all_cons, Bool.and_eq_true] at h
    simp [List.takeWhile_cons, h.1, ih h.2]

theorem dropWhile_of_all {α : Type _} {p : α → Bool} {l : List α} (h : l.all p = true) :
    l.dropWhile p = [] := by
  induction l with
  | nil => rfl
  | cons x xs ih =>
    simp only [List.all_cons, Bool.and_eq_true] at h
    simp [List.dropWhile_cons, h.1, ih h.2]

/-- `matchVersionRe` on a nonempty all-digit prefix: a single group,
everything consumed. -/
theorem matchVersionRe_all_digits {p : List Char} (hne : p ≠ [])
    (hd : p.all Char.isDigit = true) : matchVersionRe p = some ([p], []) := by
  have hfalse : p.isEmpty = false := by
    cases p with
    | nil => exact absurd rfl hne
    | cons c r => rfl
  simp only [matchVersionRe, takeWhile_of_all hd, dropWhile_of_all hd, hfalse]
  rfl

/-- **C7.** Noise filtering of `parse_docker_tag`: every tag in the
case-insensitive moving-reference set is rejected; every bare hex string of
length 7–40 that is not purely decimal is rejected; every tag whose
pre-dash, `v`-stripped version segment is a nonempty dot-free digit string of
value ≥ 1000 is rejected; while `999` and `2024.1.15` parse. -/
theorem C7_noise_filtering :
    (∀ t : String, lowers t.data ∈ specialTags → parse_docker_tag t = none) ∧
    (∀ t : String, 7 ≤ t.data.length → t.data.length ≤ 40 →
      t.data.all isHexC = true → ¬ t.data.all Char.isDigit = true →
      parse_docker_tag t = none) ∧
    (∀ t : String, (splitDash (stripV t.data)).1 ≠ [] →
      (splitDash (stripV t.data)).1.all Char.isDigit = true →
      1000 ≤ natOfDigits (splitDash (stripV t.data)).1 →
      parse_docker_tag t = none) ∧
    (parse_docker_tag "999" ≠ none ∧ parse_docker_tag "2024.1.15" ≠ none ∧
     parse_docker_tag "20260202" = none ∧ parse_docker_tag "latest" = none ∧
     parse_docker_tag "0a1b2c3d4e5f6a7b8c9d0a1b2c3d4e5f6a7b8c9d" = none) := by
  refine ⟨?_, ?_, ?_, by decide⟩
  · intro t hmem
    simp only [parse_docker_tag]
    by_cases h1 : t.data.isEmpty = true
    · rw [if_pos h1]
    · rw [if_neg h1, if_pos hmem]
  · intro t h7 h40 hhex hnotdig
    simp only [parse_docker_tag]
    by_cases h1 : t.data.isEmpty = true
    · rw [if_pos h1]
    · rw [if_neg h1]
      by_cases h2 : lowers t.data ∈ specialTags
      · rw [if_pos h2]
      · rw [if_neg h2, if_pos ⟨⟨h7, h40, hhex⟩, hnotdig⟩]
  · intro t hne hdig hge
    simp only [parse_docker_tag]
    by_cases h1 : t.data.isEmpty = true
    · rw [if_pos h1]
    · rw [if_neg h1]
      by_cases h2 : lowers t.data ∈ specialTags
      · rw [if_pos h2]
      · rw [if_neg h2]
        by_cases h3 : (7 ≤ t.data.length ∧ t.data.length ≤ 40 ∧
            t.data.all isHexC = true) ∧ ¬ t.data.all Char.isDigit = true
        · rw [if_pos h3]
        · rw [if_neg h3, matchVersionRe_all_digits hne hdig]
          simp [hge]

/-- Witness for C7: each rejection clause at a concrete tag. -/
theorem C7_noise_filtering_witness :
    parse_docker_tag "Stable" = none ∧ parse_docker_tag "abc1234" = none ∧
    parse_docker_tag "v1000-alpine" = none := by
  refine ⟨?_, ?_, ?_⟩
  · exact C7_noise_filtering.1 "Stable" (by decide)
  · exact C7_noise_filtering.2.1 "abc1234" (by decide) (by decide) (by decide) (by decide)
  · exact C7_noise_filtering.2.2.1 "v1000-alpine" (by decide) (by decide) (by decide)

/-- The number part of the `Version.post` property (`self._post[1]`). -/
def Version.postNum (v : Version) : Option Nat := v.post.map (·.2)

/-- **C8.** Pre/post spelling normalization: `_parse_letter_version` maps
alternate spellings through the alias table (`alpha→a`, `beta→b`,
`c|pre|preview→rc`, `milestone→m`, `rev|r→post`), an absent number defaults
to 0, a bare number is an implicit post-release; and at the `parse` level
`1.0pre8` yields pre `("rc", 8)`, `1.0-1` yields post number 1 and compares
equal to `1.0.post1`. -/
theorem C8_letter_normalization :
    (∀ n : List Char,
      _parse_letter_version (some "alpha".data) (some n) = some ("a", natOfDigits n) ∧
      _parse_letter_version (some "beta".data) (some n) = some ("b", natOfDigits n) ∧
      _parse_letter_version (some "c".data) (some n) = some ("rc", natOfDigits n) ∧
      _parse_letter_version (some "pre".data) (some n) = some ("rc", natOfDigits n) ∧
      _parse_letter_version (some "preview".data) (some n) = some ("rc", natOfDigits n) ∧
      _parse_letter_version (some "milestone".data) (some n) = some ("m", natOfDigits n) ∧
      _parse_letter_version (some "rev".data) (some n) = some ("post", natOfDigits n) ∧
      _parse_letter_version (some "r".data) (some n) = some ("post", natOfDigits n)) ∧
    (_parse_letter_version (some "alpha".data) none = some ("a", 0) ∧
     _parse_letter_version (some "beta".data) none = some ("b", 0) ∧
     _parse_letter_version (some "pre".data) none = some ("rc", 0) ∧
     _parse_letter_version (some "milestone".data) none = some ("m", 0) ∧
     _parse_letter_version (some "rev".data) none = some ("post", 0)) ∧
    (∀ ds : List Char, ds ≠ [] →
      _parse_letter_version none (some ds) = some ("post", natOfDigits ds)) ∧
    ((parse "1.0pre8").map Version.pre = some (some ("rc", 8)) ∧
     (parse "1.0-1").map Version.postNum = some (some 1) ∧
     cmpParse "1.0-1" "1.0.post1" = some .eq) := by
  refine ⟨?_, by decide, ?_, by decide⟩
  · intro n
    refine ⟨rfl, rfl, rfl, rfl, rfl, rfl, rfl, rfl⟩
  · intro ds hne
    unfold _parse_letter_version fallbackNumber
    simp [hne]

/-- Witness for C8 at a concrete letter and number. -/
theorem C8_letter_normalization_witness :
    _parse_letter_version (some "alpha".data) (some ['7']) = some ("a", 7) ∧
    _parse_letter_version none (some ['1']) = some ("post", 1) := by
  constructor
  · have h := (C8_letter_normalization.1 ['7']).1
    rw [h]
    decide
  · have h := C8_letter_normalization.2.2.1 ['1'] (by decide)
    rw [h]
    decide

/-- **C9.** (Spec-modelled.) The Tag Selection Engine signals "no eligible
tag" with an explicit `none`, never an error: the empty tag set yields
`none` for every hint, a hint whose suffix no parsed tag shares yields
`none`, and concretely `selectBestTag {"3.7.0","3.8.0"} "3.7.0-alpine" =
none`. -/
theorem C9_no_match_is_none :
    (∀ hint : Option String, selectBestTag [] hint = none) ∧
    (∀ (tags : List String) (h : String),
      (∀ t ∈ tags, ∀ p : DockerTag, parse_docker_tag t = some p →
        p.suffix ≠ hintSuffix h) →
      selectBestTag tags (some h) = none) ∧
    selectBestTag ["3.7.0", "3.8.0"] (some "3.7.0-alpine") = none := by
  refine ⟨?_, ?_, by decide⟩
  · intro hint
    cases hint with
    | none => rfl
    | some h =>
      simp only [selectBestTag, List.filterMap_nil, List.filter_nil, ite_self]
      rfl
  · intro tags h hyp
    simp only [selectBestTag]
    have helig : (tags.filterMap parse_docker_tag).filter
        (fun p => p.suffix == hintSuffix h) = [] := by
      rw [List.filter_eq_nil_iff]
      intro p hp
      obtain ⟨t, ht, hpt⟩ := List.mem_filterMap.mp hp
      simpa using hyp t ht p hpt
    rw [helig]
    cases hb : hintHasPre h <;> simp [pickBest]

/-- Witness for C9: the no-suffix-match clause at a concrete tag set. -/
theorem C9_no_match_is_none_witness :
    selectBestTag ["1.2.3"] (some "1.0-alpine") = none := by
  refine C9_no_match_is_none.2.1 ["1.2.3"] "1.0-alpine" ?_
  intro t ht p hpt
  have ht' : t = "1.2.3" := by simpa using ht
  subst ht'
  have : parse_docker_tag "1.2.3" =
      some ⟨[1, 2, 3], "", "", "1.2.3"⟩ := by decide
  rw [this] at hpt
  cases hpt
  decide

/-- **C10.** Totality of the tag parser: `parse_docker_tag` is a total
function into an option type — invalid or noise tags are signalled only by
`none` (including for the empty string), never by an exception — and every
`some` result carries the original tag string unchanged. -/
theorem C10_docker_tag_totality :
    (∀ (t : String) (p : DockerTag), parse_docker_tag t = some p → p.original = t) ∧
    (∀ t : String, parse_docker_tag t = none ∨
      ∃ p : DockerTag, parse_docker_tag t = some p) ∧
    parse_docker_tag "" = none := by
  have main : ∀ (t : String) (p : DockerTag), parse_docker_tag t = some p →
      p.original = t := by
    intro t p h
    simp only [parse_docker_tag] at h
    split_ifs at h with h1 h2 h3
    split at h
    · cases h
    · split_ifs at h with h4
      cases h
      rfl
  refine ⟨main, ?_, rfl⟩
  intro t
  cases h : parse_docker_tag t with
  | none => exact .inl rfl
  | some p => exact .inr ⟨p, rfl⟩

/-- Witness for C10 at a concrete tag. -/
theorem C10_docker_tag_totality_witness :
    ({ release := [1, 2, 3], suffix := "", prerelease := "",
       original := "1.2.3" } : DockerTag).original = "1.2.3" :=
  C10_docker_tag_totality.1 "1.2.3" _ (by decide)

/-! ## C5: inputs outside the grammar

No element of the version grammar can consume a `+` or a `!` — the character
classes are whitespace, `v`, digits, `[._-]`, the letter tokens (matched
case-insensitively) and `[a-z0-9]`.  We track this through the candidate
search: `Consumes t r` says `r` is reachable from `t` by consuming only
clean characters. -/

/-- Characters the grammar can consume never include `+` or `!`. -/
def okC (c : Char) : Bool := !(c == '+' || c == '!')

/-- `r` is a suffix of `t` whose consumed prefix is clean. -/
def Consumes (t r : List Char) : Prop :=
  ∃ u, t = u ++ r ∧ ∀ c ∈ u, okC c = true

theorem consumes_refl (t : List Char) : Consumes t t := ⟨[], rfl, by simp⟩

theorem consumes_trans {t₁ t₂ t₃ : List Char} (h1 : Consumes t₁ t₂)
    (h2 : Consumes t₂ t₃) : Consumes t₁ t₃ := by
  obtain ⟨u1, rfl, hu1⟩ := h1
  obtain ⟨u2, rfl, hu2⟩ := h2
  refine ⟨u1 ++ u2, by rw [List.append_assoc], ?_⟩
  intro c hc
  rcases List.mem_append.mp hc with h | h
  exacts [hu1 c h, hu2 c h]

theorem okC_eq_false {c : Char} (h : okC c = false) : c = '+' ∨ c = '!' := by
  simp only [okC, Bool.not_eq_false', Bool.or_eq_true, beq_iff_eq] at h
  exact h

/-- If a character class excludes `+` and `!`, its members are clean. -/
theorem okC_of_pred {p : Char → Bool} (hp : p '+' = false) (hp2 : p '!' = false)
    {c : Char} (h : p c = true) : okC c = true := by
  cases hok : okC c
  · rcases okC_eq_false hok with rfl | rfl
    · rw [h] at hp; cases hp
    · rw [h] at hp2; cases hp2
  · rfl

theorem consumes_dropWhile {p : Char → Bool} (hp : p '+' = false)
    (hp2 : p '!' = false) (t : List Char) : Consumes t (t.dropWhile p) :=
  ⟨t.takeWhile p, (List.takeWhile_append_dropWhile p t).symm, fun _ hc =>
    okC_of_pred hp hp2 (List.mem_takeWhile_imp hc)⟩

theorem consumes_sepOpt (t : List Char) : Consumes t (sepOpt t) := by
  cases t with
  | nil => exact consumes_refl _
  | cons c r =>
    show Consumes (c :: r) (if isSepC c = true then r else c :: r)
    by_cases h : isSepC c = true
    · rw [if_pos h]
      refine ⟨[c], rfl, ?_⟩
      intro x hx
      rw [List.mem_singleton] at hx
      subst hx
      exact @okC_of_pred isSepC (by decide) (by decide) _ h
    · rw [if_neg h]
      exact consumes_refl _

theorem consumes_vOpt (t : List Char) : Consumes t (vOpt t) := by
  cases t with
  | nil => exact consumes_refl _
  | cons c r =>
    show Consumes (c :: r) (if (c == 'v' || c == 'V') = true then r else c :: r)
    by_cases h : (c == 'v' || c == 'V') = true
    · rw [if_pos h]
      refine ⟨[c], rfl, ?_⟩
      intro x hx
      rw [List.mem_singleton] at hx
      subst hx
      exact @okC_of_pred (fun c => c == 'v' || c == 'V') (by decide) (by decide) _ h
    · rw [if_neg h]
      exact consumes_refl _

/-- A token whose characters are clean under lowercasing. -/
def TokOk (tok : List Char) : Prop := ∀ x ∈ tok, x ≠ '+' ∧ x ≠ '!'

theorem consumes_matchToken {tok s : List Char} {lr : List Char × List Char}
    (hok : TokOk tok) (h : matchToken tok s = some lr) : Consumes s lr.2 := by
  unfold matchToken at h
  split_ifs at h with he
  cases h
  refine ⟨s.take tok.length, (List.take_append_drop _ _).symm, ?_⟩
  intro c hc
  have hmem : Char.toLower c ∈ tok := by
    rw [← he]
    exact List.mem_map_of_mem Char.toLower hc
  cases hok2 : okC c
  · rcases okC_eq_false hok2 with rfl | rfl
    · rw [show Char.toLower '+' = '+' from by decide] at hmem
      exact absurd rfl (hok _ hmem).1
    · rw [show Char.toLower '!' = '!' from by decide] at hmem
      exact absurd rfl (hok _ hmem).2
  · rfl

theorem consumes_firstToken {toks : List (List Char)} {s : List Char}
    {lr : List Char × List Char} (hok : ∀ tok ∈ toks, TokOk tok)
    (h : firstToken toks s = some lr) : Consumes s lr.2 := by
  induction toks with
  | nil => cases h
  | cons t ts ih =>
    unfold firstToken at h
    cases hm : matchToken t s with
    | some res =>
      rw [hm] at h
      cases h
      exact consumes_matchToken (hok t (by simp)) hm
    | none =>
      rw [hm] at h
      exact ih (fun tok htok => hok tok (List.mem_cons_of_mem _ htok)) h

theorem preTokens_ok : ∀ tok ∈ preTokens, TokOk tok := by
  unfold TokOk
  decide

theorem postTokens_ok : ∀ tok ∈ postTokens, TokOk tok := by
  unfold TokOk
  decide

theorem devTok_ok : TokOk "dev".data := by
  unfold TokOk
  decide

theorem consumes_numOpt (t : List Char) : Consumes t (numOpt t).2 := by
  show Consumes t (if (t.takeWhile Char.isDigit).isEmpty = true
    then ((none : Option (List Char)), t)
    else (some (t.takeWhile Char.isDigit), t.dropWhile Char.isDigit)).2
  by_cases h : (t.takeWhile Char.isDigit).isEmpty = true
  · rw [if_pos h]
    exact consumes_refl _
  · rw [if_neg h]
    exact consumes_dropWhile (by decide) (by decide) t

theorem consumes_preAttempt {s : List Char} {gr : RawLN × List Char}
    (h : preAttempt s = some gr) : Consumes s gr.2 := by
  simp only [preAttempt] at h
  cases hm : firstToken preTokens (sepOpt s) with
  | none => rw [hm] at h; cases h
  | some ls =>
    rw [hm] at h
    cases h
    exact consumes_trans (consumes_sepOpt s)
      (consumes_trans (consumes_firstToken preTokens_ok hm)
        (consumes_trans (consumes_sepOpt ls.2) (consumes_numOpt _)))

theorem consumes_devAttempt {s : List Char} {gr : RawLN × List Char}
    (h : devAttempt s = some gr) : Consumes s gr.2 := by
  simp only [devAttempt] at h
  cases hm : matchToken "dev".data (sepOpt s) with
  | none => rw [hm] at h; cases h
  | some ls =>
    rw [hm] at h
    cases h
    exact consumes_trans (consumes_sepOpt s)
      (consumes_trans (consumes_matchToken devTok_ok hm)
        (consumes_trans (consumes_sepOpt ls.2) (consumes_numOpt _)))

theorem consumes_postAlt1 {s : List Char} {gr : RawLN × List Char}
    (h : postAlt1 s = some gr) : Consumes s gr.2 := by
  simp only [postAlt1] at h
  split at h
  · rename_i c r
    split_ifs at h with hdash hds
    cases h
    subst hdash
    exact consumes_trans ⟨['-'], rfl, by decide⟩
      (consumes_dropWhile (by decide) (by decide) r)
  · cases h

theorem consumes_postAlt2Tail {l rest : List Char} {gr : RawLN × List Char}
    (h : gr ∈ postAlt2Tail l rest) : Consumes rest gr.2 := by
  cases rest with
  | nil =>
    rw [postAlt2Tail_nil, List.mem_singleton] at h
    subst h
    exact consumes_refl _
  | cons c r =>
    rw [postAlt2Tail_cons] at h
    by_cases hc : isSepC c = true
    · rw [if_pos hc] at h
      have hcr : Consumes (c :: r) r := ⟨[c], rfl, by
          intro x hx
          rw [List.mem_singleton] at hx
          subst hx
          exact @okC_of_pred isSepC (by decide) (by decide) _ hc⟩
      split_ifs at h with hds
      · rcases List.mem_pair.mp h with rfl | rfl
        · exact hcr
        · exact consumes_refl _
      · rcases List.mem_pair.mp h with rfl | rfl
        · exact consumes_trans hcr (consumes_dropWhile (by decide) (by decide) r)
        · exact consumes_refl _
    · rw [if_neg hc] at h
      split_ifs at h with hds
      · rw [List.mem_singleton] at h
        subst h
        exact consumes_refl _
      · rw [List.mem_singleton] at h
        subst h
        exact consumes_dropWhile (by decide) (by decide) (c :: r)

theorem consumes_postAlt2 {s : List Char} {gr : RawLN × List Char}
    (h : gr ∈ postAlt2 s) : Consumes s gr.2 := by
  simp only [postAlt2] at h
  split at h
  · cases h
  · rename_i ls hm
    have hbase : Consumes s ls.2 :=
      consumes_trans (consumes_sepOpt s) (consumes_firstToken postTokens_ok hm)
    exact consumes_trans hbase (consumes_postAlt2Tail h)

theorem consumes_varGroupsF (f : Nat) : ∀ s : List Char, Consumes s (varGroupsF f s).2 := by
  induction f with
  | zero =>
    intro s
    exact consumes_refl _
  | succ f ih =>
    intro s
    cases s with
    | nil => exact consumes_refl _
    | cons c r =>
      show Consumes (c :: r) (varGroupsF (f + 1) (c :: r)).2
      simp only [varGroupsF]
      by_cases hsep : isSepC c = true
      · rw [if_pos hsep]
        by_cases hg : (r.takeWhile Char.isAlphanum).isEmpty = true
        · rw [if_pos hg]
          exact consumes_refl _
        · rw [if_neg hg]
          refine @consumes_trans _ r _ ⟨[c], rfl, ?_⟩ ?_
          · intro x hx
            rw [List.mem_singleton] at hx
            subst hx
            exact @okC_of_pred isSepC (by decide) (by decide) _ hsep
          · exact consumes_trans (consumes_dropWhile (by decide) (by decide) r) (ih _)
      · rw [if_neg hsep]
        exact consumes_refl _

theorem consumes_varAttempt {s : List Char} {gr : List Char × List Char}
    (h : varAttempt s = some gr) : Consumes s gr.2 := by
  simp only [varAttempt] at h
  split at h
  · rename_i c r
    split_ifs at h with hdash hg
    cases h
    subst hdash
    refine consumes_trans ⟨['-'], rfl, by decide⟩ ?_
    exact consumes_trans (consumes_dropWhile (by decide) (by decide) r)
      (consumes_varGroupsF _ _)
  · cases h

theorem consumes_groupCands {α : Type _} {att : Option (α × List Char)} {s : List Char}
    (hatt : ∀ gr, att = some gr → Consumes s gr.2) :
    ∀ x ∈ groupCands att s, Consumes s x.2 := by
  intro x hx
  unfold groupCands at hx
  cases att with
  | none =>
    rw [List.nil_append, List.mem_singleton] at hx
    subst hx
    exact consumes_refl _
  | some gr =>
    rcases List.mem_pair.mp hx with rfl | rfl
    · exact hatt gr rfl
    · exact consumes_refl _

theorem consumes_preCands {s : List Char} : ∀ x ∈ preCands s, Consumes s x.2 :=
  consumes_groupCands (fun _ h => consumes_preAttempt h)

theorem consumes_devCands {s : List Char} : ∀ x ∈ devCands s, Consumes s x.2 :=
  consumes_groupCands (fun _ h => consumes_devAttempt h)

theorem consumes_varCands {s : List Char} : ∀ x ∈ varCands s, Consumes s x.2 :=
  consumes_groupCands (fun _ h => consumes_varAttempt h)

theorem consumes_postCands {s : List Char} : ∀ x ∈ postCands s, Consumes s x.2 := by
  intro x hx
  unfold postCands at hx
  rcases List.mem_append.mp hx with hx' | hx'
  · rcases List.mem_append.mp hx' with hx'' | hx''
    · cases ha : postAlt1 s with
      | none => rw [ha] at hx''; cases hx''
      | some gr =>
        rw [ha, List.mem_singleton] at hx''
        subst hx''
        exact consumes_postAlt1 ha
    · obtain ⟨gr, hgr, hmap⟩ := List.mem_map.mp hx''
      cases hmap
      exact consumes_postAlt2 hgr
  · rw [List.mem_singleton] at hx'
    subst hx'
    exact consumes_refl _

theorem consumes_devBlock {s : List Char} : ∀ x ∈ devBlock s, Consumes s x.2 := by
  intro x hx
  unfold devBlock at hx
  obtain ⟨dc, hdc, hin⟩ := List.mem_flatMap.mp hx
  obtain ⟨vc, hvc, hmap⟩ := List.mem_map.mp hin
  cases hmap
  exact consumes_trans (consumes_devCands dc hdc) (consumes_varCands vc hvc)

theorem consumes_postBlock {s : List Char} : ∀ x ∈ postBlock s, Consumes s x.2 := by
  intro x hx
  unfold postBlock at hx
  obtain ⟨pc, hpc, hin⟩ := List.mem_flatMap.mp hx
  obtain ⟨dc, hdc, hmap⟩ := List.mem_map.mp hin
  cases hmap
  exact consumes_trans (consumes_postCands pc hpc) (consumes_devBlock dc hdc)

theorem consumes_tailCands {s : List Char} : ∀ x ∈ tailCands s, Consumes s x.2 := by
  intro x hx
  unfold tailCands at hx
  obtain ⟨pc, hpc, hin⟩ := List.mem_flatMap.mp hx
  obtain ⟨tc, htc, hmap⟩ := List.mem_map.mp hin
  cases hmap
  exact consumes_trans (consumes_preCands pc hpc) (consumes_postBlock tc htc)

theorem consumes_parseRelCompsF (f : Nat) : ∀ s : List Char,
    Consumes s (parseRelCompsF f s).2 := by
  induction f with
  | zero =>
    intro s
    exact consumes_refl _
  | succ f ih =>
    intro s
    cases s with
    | nil => exact consumes_refl _
    | cons c r =>
      show Consumes (c :: r) (parseRelCompsF (f + 1) (c :: r)).2
      simp only [parseRelCompsF]
      by_cases hc : c = '.'
      · rw [if_pos hc]
        by_cases hds : (r.takeWhile Char.isDigit).isEmpty = true
        · rw [if_pos hds]
          exact consumes_refl _
        · rw [if_neg hds]
          subst hc
          refine consumes_trans ⟨['.'], rfl, by decide⟩ ?_
          exact consumes_trans (consumes_dropWhile (by decide) (by decide) r) (ih _)
      · rw [if_neg hc]
        exact consumes_refl _

theorem consumes_parseRelease {s : List Char} {rel : List Nat × List Char}
    (h : parseRelease s = some rel) : Consumes s rel.2 := by
  simp only [parseRelease] at h
  split_ifs at h with hds
  cases h
  exact consumes_trans (consumes_dropWhile (by decide) (by decide) s)
    (consumes_parseRelCompsF _ _)

theorem firstFull_mem {α : Type _} {l : List (α × List Char)} {x : α}
    (h : firstFull l = some x) : ∃ r, (x, r) ∈ l ∧ r.all isSpaceC = true := by
  induction l with
  | nil => cases h
  | cons p ps ih =>
    obtain ⟨y, r⟩ := p
    unfold firstFull at h
    split_ifs at h with hs
    · cases h
      exact ⟨r, List.mem_cons_self _ _, hs⟩
    · obtain ⟨r', hm, hr⟩ := ih h
      exact ⟨r', List.mem_cons_of_mem _ hm, hr⟩

/-- **C5.** Every string the Version Model accepts is free of `+` and `!`
(so any input containing them — e.g. `1.0+local`, `1!1.0` — is rejected
with the distinct `InvalidVersion` error, modeled by the `none` result, and
is never silently coerced to a zero version), and the concrete bad inputs
`"invalid"`, `"1.0+local"`, `"1!1.0"` and the trailing bare dash `"1.0-"`
are all rejected. -/
theorem C5_invalid_inputs :
    (∀ (s : String) (v : Version), parse s = some v →
      '+' ∉ s.data ∧ '!' ∉ s.data) ∧
    (parse "invalid" = none ∧ parse "1.0+local" = none ∧ parse "1!1.0" = none ∧
     parse "1.0-" = none) := by
  refine ⟨?_, by decide, by decide, by decide, by decide⟩
  intro s v h
  unfold parse parseChars at h
  have hclean : ∀ c ∈ s.data, okC c = true := by
    split at h
    · cases h
    · rename_i rel hrel
      split at h
      · rename_i g hff
        obtain ⟨r, hmem, hws⟩ := firstFull_mem hff
        have hcons : Consumes s.data r :=
          consumes_trans (consumes_dropWhile (by decide) (by decide) s.data)
            (consumes_trans (consumes_vOpt _)
              (consumes_trans (consumes_parseRelease hrel)
                (consumes_tailCands _ hmem)))
        obtain ⟨u, hu, huok⟩ := hcons
        intro c hc
        rw [hu] at hc
        rcases List.mem_append.mp hc with hcu | hcr
        · exact huok c hcu
        · have hsp : isSpaceC c = true := by
            rw [List.all_eq_true] at hws
            exact hws c hcr
          exact @okC_of_pred isSpaceC (by decide) (by decide) _ hsp
      · cases h
  constructor
  · intro hplus
    have := hclean '+' hplus
    rw [show okC '+' = false from by decide] at this
    cases this
  · intro hbang
    have := hclean '!' hbang
    rw [show okC '!' = false from by decide] at this
    cases this

/-- Witness for C5 at a concrete accepted string. -/
theorem C5_invalid_inputs_witness :
    '+' ∉ ("1.0a1" : String).data ∧ '!' ∉ ("1.0a1" : String).data :=
  C5_invalid_inputs.1 "1.0a1" ⟨[1, 0], some ("a", 1), none, none, none⟩ (by decide)

/-! ## C4: round-trip stability

The plan: from a successful parse of `s` we extract the chosen candidate
chain (one candidate per optional group, every earlier candidate failing),
and show the parse of the canonical rendering `str(v)` chooses a chain with
the same field values.  Present groups re-parse deterministically from their
canonical spellings; absent groups either face a canonical successor they
provably cannot touch (`.postN`, `.devN`), or face the variant suffix `-V`,
where the remaining input of `s` at that group position is exactly `-V`
followed by whitespace, so the candidate exploration of the rendered string
is the `s`-side exploration with the trailing whitespace stripped (the
whitespace-extension lemmas). -/

theorem char_toNat_le_of_digit {c : Char} (h : c.isDigit = true) : c.toNat ≤ 57 := by
  simp only [Char.isDigit, Bool.and_eq_true, decide_eq_true_eq] at h
  obtain ⟨h1, h2⟩ := h
  have := UInt32.le_def.mp h2
  simpa [Char.toNat, UInt32.toNat, BitVec.le_def] using this

theorem toLower_of_toNat_lt {c : Char} (h : c.toNat < 65) : c.toLower = c := by
  unfold Char.toLower
  rw [if_neg]
  intro hcon
  omega

theorem toLower_of_digit {c : Char} (h : c.isDigit = true) : c.toLower = c :=
  toLower_of_toNat_lt (Nat.lt_of_le_of_lt (char_toNat_le_of_digit h) (by omega))

theorem char_toNat_of_space {c : Char} (h : isSpaceC c = true) : c.toNat < 65 := by
  simp only [isSpaceC, Bool.or_eq_true, beq_iff_eq] at h
  rcases h with ((((rfl | rfl) | rfl) | rfl) | rfl) | rfl <;> decide

theorem toLower_of_space {c : Char} (h : isSpaceC c = true) : c.toLower = c :=
  toLower_of_toNat_lt (char_toNat_of_space h)

theorem space_not_digit {c : Char} (h : isSpaceC c = true) : c.isDigit = false := by
  simp only [isSpaceC, Bool.or_eq_true, beq_iff_eq] at h
  rcases h with ((((rfl | rfl) | rfl) | rfl) | rfl) | rfl <;> decide

theorem space_not_alnum {c : Char} (h : isSpaceC c = true) : c.isAlphanum = false := by
  simp only [isSpaceC, Bool.or_eq_true, beq_iff_eq] at h
  rcases h with ((((rfl | rfl) | rfl) | rfl) | rfl) | rfl <;> decide

theorem space_not_sep {c : Char} (h : isSpaceC c = true) : isSepC c = false := by
  simp only [isSpaceC, Bool.or_eq_true, beq_iff_eq] at h
  rcases h with ((((rfl | rfl) | rfl) | rfl) | rfl) | rfl <;> decide

/-! ### Decimal rendering round-trips -/

theorem char_toNat_ofNat_digit {d : Nat} (h : d < 10) :
    (Char.ofNat (48 + d)).toNat = 48 + d := by
  interval_cases d <;> decide

theorem isDigit_ofNat_digit {d : Nat} (h : d < 10) :
    (Char.ofNat (48 + d)).isDigit = true := by
  interval_cases d <;> decide

theorem natRepr_ne_nil (n : Nat) : natRepr n ≠ [] := by
  unfold natRepr
  split
  · simp
  · rename_i h
    simp only [ne_eq, List.map_eq_nil_iff, List.reverse_eq_nil_iff]
    exact Nat.digits_ne_nil_iff_ne_zero.mpr h

theorem natRepr_all_digits (n : Nat) : (natRepr n).all Char.isDigit = true := by
  unfold natRepr
  split
  · decide
  · rw [List.all_eq_true]
    intro c hc
    rw [List.mem_map] at hc
    obtain ⟨d, hd, rfl⟩ := hc
    rw [List.mem_reverse] at hd
    exact isDigit_ofNat_digit (Nat.digits_lt_base (by omega) hd)

theorem foldl_base10_reverse (l : List Nat) (a : Nat) :
    l.reverse.foldl (fun acc d => 10 * acc + d) a =
      a * 10 ^ l.length + Nat.ofDigits 10 l := by
  induction l generalizing a with
  | nil => simp
  | cons d ds ih =>
    rw [List.reverse_cons, List.foldl_append, ih]
    simp only [List.foldl_cons, List.foldl_nil, Nat.ofDigits_cons, List.length_cons]
    ring

theorem natOfDigits_natRepr (n : Nat) : natOfDigits (natRepr n) = n := by
  unfold natRepr natOfDigits
  split
  · rename_i h
    subst h
    decide
  · rename_i h
    rw [List.foldl_map]
    have hcongr : ∀ (a : Nat), ∀ d ∈ (Nat.digits 10 n).reverse,
        10 * a + ((Char.ofNat (48 + d)).toNat - 48) = 10 * a + d := by
      intro a d hd
      rw [List.mem_reverse] at hd
      rw [char_toNat_ofNat_digit (Nat.digits_lt_base (by omega) hd)]
      omega
    rw [List.foldl_ext _ _ _ hcongr, foldl_base10_reverse]
    simp [Nat.ofDigits_digits]

theorem natRepr_isEmpty (n : Nat) : (natRepr n).isEmpty = false := by
  cases hh : natRepr n with
  | nil => exact absurd hh (natRepr_ne_nil n)
  | cons c r => rfl

/-! ### Maximal digit runs against canonical successors -/

/-- The head (if any) is not a digit. -/
def NoDigitHead : List Char → Prop
  | [] => True
  | c :: _ => c.isDigit = false

theorem digitRun_stop {rest : List Char} (h : NoDigitHead rest) :
    rest.takeWhile Char.isDigit = [] ∧ rest.dropWhile Char.isDigit = rest := by
  cases rest with
  | nil => exact ⟨rfl, rfl⟩
  | cons c r =>
    unfold NoDigitHead at h
    exact ⟨by simp [List.takeWhile_cons, h], by simp [List.dropWhile_cons, h]⟩

theorem digitRun_append {ds rest : List Char} (hds : ds.all Char.isDigit = true)
    (h : NoDigitHead rest) :
    (ds ++ rest).takeWhile Char.isDigit = ds ∧
      (ds ++ rest).dropWhile Char.isDigit = rest := by
  induction ds with
  | nil => simpa using digitRun_stop h
  | cons d ds ih =>
    simp only [List.all_cons, Bool.and_eq_true] at hds
    obtain ⟨hd, hds'⟩ := hds
    obtain ⟨h1, h2⟩ := ih hds'
    exact ⟨by simp [List.takeWhile_cons, hd, h1], by simp [List.dropWhile_cons, hd, h2]⟩

/-- A string the release segment cannot extend into: its head is not a
digit, and when its head is a `.`, the next character is not a digit. -/
def RelStop : List Char → Prop
  | [] => True
  | c :: r => c.isDigit = false ∧ (c = '.' → NoDigitHead r)

theorem noDigitHead_relTail (xs : List Nat) {rest : List Char} (h : RelStop rest) :
    NoDigitHead (xs.flatMap (fun y => '.' :: natRepr y) ++ rest) := by
  cases xs with
  | nil =>
    simp only [List.flatMap_nil, List.nil_append]
    cases rest with
    | nil => trivial
    | cons c r => exact h.1
  | cons b bs =>
    simp only [List.flatMap_cons, List.cons_append]
    show ('.').isDigit = false
    decide

theorem relComps_render (xs : List Nat) {rest : List Char} (h : RelStop rest) :
    parseRelComps (xs.flatMap (fun y => '.' :: natRepr y) ++ rest) = (xs, rest) := by
  induction xs with
  | nil =>
    simp only [List.flatMap_nil, List.nil_append]
    cases rest with
    | nil => rfl
    | cons c r =>
      rw [parseRelComps_eq]
      by_cases hc : c = '.'
      · subst hc
        rw [if_pos rfl]
        rw [(digitRun_stop (h.2 rfl)).1]
        simp
      · rw [if_neg hc]
  | cons x xs ih =>
    simp only [List.flatMap_cons, List.cons_append, List.append_assoc]
    rw [parseRelComps_eq, if_pos rfl]
    obtain ⟨ht, hd⟩ := digitRun_append (natRepr_all_digits x) (noDigitHead_relTail xs h)
    rw [ht, hd]
    simp only [natRepr_isEmpty, Bool.false_eq_true, if_false, ih, natOfDigits_natRepr]

theorem parseRelease_render {rel : List Nat} (hne : rel ≠ []) {rest : List Char}
    (h : RelStop rest) :
    parseRelease (renderRelease rel ++ rest) = some (rel, rest) := by
  cases rel with
  | nil => exact absurd rfl hne
  | cons x xs =>
    show parseRelease ((natRepr x ++ xs.flatMap (fun y => '.' :: natRepr y)) ++ rest) = _
    rw [List.append_assoc]
    simp only [parseRelease, digitRun]
    obtain ⟨ht, hd⟩ := digitRun_append (natRepr_all_digits x) (noDigitHead_relTail xs h)
    rw [ht, hd]
    simp only [natRepr_isEmpty, Bool.false_eq_true, if_false, relComps_render xs h,
      natOfDigits_natRepr]

/-! ### Whitespace extension

Exploring `u ++ w` for all-whitespace `w` is exploring `u` with `w` tacked
onto every remainder: no grammar element consumes whitespace. -/

theorem takeWhile_ws_ext {p : Char → Bool} (hp : ∀ c, isSpaceC c = true → p c = false)
    {w : List Char} (hw : w.all isSpaceC = true) (u : List Char) :
    (u ++ w).takeWhile p = u.takeWhile p ∧ (u ++ w).dropWhile p = u.dropWhile p ++ w := by
  induction u with
  | nil =>
    simp only [List.nil_append, List.takeWhile_nil, List.dropWhile_nil]
    cases w with
    | nil => exact ⟨rfl, rfl⟩
    | cons c r =>
      rw [List.all_cons, Bool.and_eq_true] at hw
      have hc : p c = false := hp c hw.1
      exact ⟨by simp [List.takeWhile_cons, hc], by simp [List.dropWhile_cons, hc]⟩
  | cons x xs ih =>
    by_cases hx : p x = true
    · simp only [List.cons_append, List.takeWhile_cons, List.dropWhile_cons, hx, if_true,
        ih.1, ih.2]
      simp
    · simp only [List.cons_append, List.takeWhile_cons, List.dropWhile_cons, hx]
      simp

theorem sepOpt_ws_ext {w : List Char} (hw : w.all isSpaceC = true) (u : List Char) :
    sepOpt (u ++ w) = sepOpt u ++ w := by
  cases u with
  | nil =>
    simp only [List.nil_append]
    cases w with
    | nil => rfl
    | cons c r =>
      rw [List.all_cons, Bool.and_eq_true] at hw
      show (if isSepC c = true then r else c :: r) = [] ++ c :: r
      rw [if_neg (by rw [space_not_sep hw.1]; exact Bool.false_ne_true), List.nil_append]
  | cons c r =>
    show (if isSepC c = true then r ++ w else c :: (r ++ w)) =
      (if isSepC c = true then r else c :: r) ++ w
    by_cases hc : isSepC c = true
    · rw [if_pos hc, if_pos hc]
    · rw [if_neg hc, if_neg hc]
      rfl

theorem matchToken_ws_ext {tok : List Char} (htok : ∀ x ∈ tok, isSpaceC x = false)
    {w : List Char} (hw : w.all isSpaceC = true) (u : List Char) :
    matchToken tok (u ++ w) = (matchToken tok u).map (fun lr => (lr.1, lr.2 ++ w)) := by
  by_cases hlen : tok.length ≤ u.length
  · unfold matchToken
    rw [List.take_append_eq_append_take, List.drop_append_eq_append_drop,
      Nat.sub_eq_zero_of_le hlen, List.take_zero, List.append_nil, List.drop_zero]
    split_ifs with he
    · rfl
    · rfl
  · push_neg at hlen
    cases w with
    | nil =>
      rw [List.append_nil]
      cases hm : matchToken tok u with
      | none => rfl
      | some lr => simp
    | cons c ws' =>
      rw [List.all_cons, Bool.and_eq_true] at hw
      have hLHS : matchToken tok (u ++ c :: ws') = none := by
        unfold matchToken
        rw [if_neg]
        intro he
        have hmem : Char.toLower c ∈ tok := by
          rw [← he]
          rw [List.take_append_eq_append_take, List.take_of_length_le (Nat.le_of_lt hlen)]
          have hk : 1 ≤ tok.length - u.length := by omega
          have : c ∈ (c :: ws').take (tok.length - u.length) := by
            cases hkk : tok.length - u.length with
            | zero => omega
            | succ m => simp [List.take_succ_cons]
          unfold lowers
          rw [List.map_append]
          exact List.mem_append_right _ (List.mem_map_of_mem _ this)
        rw [toLower_of_space hw.1] at hmem
        rw [htok c hmem] at hw
        exact Bool.false_ne_true hw.1
      have hRHS : matchToken tok u = none := by
        unfold matchToken
        rw [if_neg]
        intro he
        have := congrArg List.length he
        simp only [lowers, List.length_map, List.length_take] at this
        omega
      rw [hLHS, hRHS]
      rfl

theorem firstToken_ws_ext {toks : List (List Char)}
    (htoks : ∀ tok ∈ toks, ∀ x ∈ tok, isSpaceC x = false)
    {w : List Char} (hw : w.all isSpaceC = true) (u : List Char) :
    firstToken toks (u ++ w) = (firstToken toks u).map (fun lr => (lr.1, lr.2 ++ w)) := by
  induction toks with
  | nil => rfl
  | cons t ts ih =>
    show (match matchToken t (u ++ w) with
      | some r => some r
      | none => firstToken ts (u ++ w)) =
      Option.map (fun lr : List Char × List Char => (lr.1, lr.2 ++ w))
        (match matchToken t u with
          | some r => some r
          | none => firstToken ts u)
    rw [matchToken_ws_ext (htoks t (by simp)) hw]
    cases hm : matchToken t u with
    | some lr => rfl
    | none =>
      show firstToken ts (u ++ w) = (firstToken ts u).map _
      exact ih (fun tok htok => htoks tok (List.mem_cons_of_mem _ htok))

theorem numOpt_ws_ext {w : List Char} (hw : w.all isSpaceC = true) (u : List Char) :
    numOpt (u ++ w) = ((numOpt u).1, (numOpt u).2 ++ w) := by
  unfold numOpt digitRun
  obtain ⟨ht, hd⟩ := takeWhile_ws_ext (fun c hc => space_not_digit hc) hw u
  rw [ht, hd]
  by_cases he : (u.takeWhile Char.isDigit).isEmpty = true
  · rw [if_pos he, if_pos he]
  · rw [if_neg he, if_neg he]

theorem preAttempt_ws_ext {w : List Char} (hw : w.all isSpaceC = true) (u : List Char) :
    preAttempt (u ++ w) = (preAttempt u).map (fun gr => (gr.1, gr.2 ++ w)) := by
  unfold preAttempt
  rw [sepOpt_ws_ext hw, firstToken_ws_ext (by unfold preTokens; decide) hw]
  cases hm : firstToken preTokens (sepOpt u) with
  | none => rfl
  | some ls =>
    show some (RawLN.mk (some ls.1) (numOpt (sepOpt (ls.2 ++ w))).1,
        (numOpt (sepOpt (ls.2 ++ w))).2) =
      Option.map (fun gr : RawLN × List Char => (gr.1, gr.2 ++ w))
        (some (RawLN.mk (some ls.1) (numOpt (sepOpt ls.2)).1, (numOpt (sepOpt ls.2)).2))
    rw [sepOpt_ws_ext hw, numOpt_ws_ext hw]
    rfl

theorem devAttempt_ws_ext {w : List Char} (hw : w.all isSpaceC = true) (u : List Char) :
    devAttempt (u ++ w) = (devAttempt u).map (fun gr => (gr.1, gr.2 ++ w)) := by
  unfold devAttempt
  rw [sepOpt_ws_ext hw, matchToken_ws_ext (by decide) hw]
  cases hm : matchToken "dev".data (sepOpt u) with
  | none => rfl
  | some ls =>
    show some (RawLN.mk (some ls.1) (numOpt (sepOpt (ls.2 ++ w))).1,
        (numOpt (sepOpt (ls.2 ++ w))).2) =
      Option.map (fun gr : RawLN × List Char => (gr.1, gr.2 ++ w))
        (some (RawLN.mk (some ls.1) (numOpt (sepOpt ls.2)).1, (numOpt (sepOpt ls.2)).2))
    rw [sepOpt_ws_ext hw, numOpt_ws_ext hw]
    rfl

theorem digitRun_ws_ext {w : List Char} (hw : w.all isSpaceC = true) (u : List Char) :
    digitRun (u ++ w) = ((digitRun u).1, (digitRun u).2 ++ w) := by
  obtain ⟨ht, hd⟩ := takeWhile_ws_ext (fun c hc => space_not_digit hc) hw u
  unfold digitRun
  rw [ht, hd]

theorem digitRun_cons_ws_ext {w : List Char} (hw : w.all isSpaceC = true) (c : Char)
    (r : List Char) :
    digitRun (c :: (r ++ w)) = ((digitRun (c :: r)).1, (digitRun (c :: r)).2 ++ w) := by
  rw [← List.cons_append]
  exact digitRun_ws_ext hw (c :: r)

theorem postAlt1_ws_ext {w : List Char} (hw : w.all isSpaceC = true) (u : List Char) :
    postAlt1 (u ++ w) = (postAlt1 u).map (fun gr => (gr.1, gr.2 ++ w)) := by
  cases u with
  | nil =>
    simp only [List.nil_append]
    cases w with
    | nil => rfl
    | cons c r =>
      rw [List.all_cons, Bool.and_eq_true] at hw
      show (if c = '-' then
          if (digitRun r).1.isEmpty = true then none
          else some (RawLN.mk none (some (digitRun r).1), (digitRun r).2)
        else none) = none
      rw [if_neg]
      intro hc
      subst hc
      have := hw.1
      rw [show isSpaceC '-' = false from by decide] at this
      exact Bool.false_ne_true this
  | cons c r =>
    show (if c = '-' then
        if (digitRun (r ++ w)).1.isEmpty = true then none
        else some (RawLN.mk none (some (digitRun (r ++ w)).1), (digitRun (r ++ w)).2)
      else none) =
      Option.map (fun gr : RawLN × List Char => (gr.1, gr.2 ++ w))
        (if c = '-' then
          if (digitRun r).1.isEmpty = true then none
          else some (RawLN.mk none (some (digitRun r).1), (digitRun r).2)
        else none)
    rw [digitRun_ws_ext hw r]
    by_cases hc : c = '-'
    · rw [if_pos hc, if_pos hc]
      by_cases he : ((digitRun r).1).isEmpty = true
      · rw [if_pos he, if_pos he]
        rfl
      · rw [if_neg he, if_neg he]
        rfl
    · rw [if_neg hc, if_neg hc]
      rfl

theorem postAlt2Tail_ws_ext {w : List Char} (hw : w.all isSpaceC = true) (l : List Char) :
    ∀ u : List Char,
      postAlt2Tail l (u ++ w) = (postAlt2Tail l u).map (fun gr => (gr.1, gr.2 ++ w))
  | [] => by
    rw [List.nil_append]
    cases w with
    | nil => rfl
    | cons c r =>
      rw [List.all_cons, Bool.and_eq_true] at hw
      rw [postAlt2Tail_cons, postAlt2Tail_nil]
      rw [if_neg (by rw [space_not_sep hw.1]; exact Bool.false_ne_true)]
      rw [if_pos (by
        unfold digitRun
        rw [List.takeWhile_cons,
          if_neg (by rw [space_not_digit hw.1]; exact Bool.false_ne_true)]
        rfl)]
      rfl
  | c :: r => by
    rw [List.cons_append]
    rw [postAlt2Tail_cons, postAlt2Tail_cons]
    rw [digitRun_ws_ext hw r, digitRun_cons_ws_ext hw c r]
    by_cases hsep : isSepC c = true
    · rw [if_pos hsep, if_pos hsep]
      by_cases hds : ((digitRun r).1).isEmpty = true
      · rw [if_pos hds, if_pos hds]
        rfl
      · rw [if_neg hds, if_neg hds]
        rfl
    · rw [if_neg hsep, if_neg hsep]
      by_cases hds : ((digitRun (c :: r)).1).isEmpty = true
      · rw [if_pos hds, if_pos hds]
        rfl
      · rw [if_neg hds, if_neg hds]
        rfl

theorem postAlt2_ws_ext {w : List Char} (hw : w.all isSpaceC = true) (u : List Char) :
    postAlt2 (u ++ w) = (postAlt2 u).map (fun gr => (gr.1, gr.2 ++ w)) := by
  unfold postAlt2
  rw [sepOpt_ws_ext hw, firstToken_ws_ext (by unfold postTokens; decide) hw]
  cases hm : firstToken postTokens (sepOpt u) with
  | none => rfl
  | some ls =>
    show postAlt2Tail ls.1 (ls.2 ++ w) =
      (postAlt2Tail ls.1 ls.2).map (fun gr => (gr.1, gr.2 ++ w))
    exact postAlt2Tail_ws_ext hw ls.1 ls.2

theorem alnumRun_ws_ext {w : List Char} (hw : w.all isSpaceC = true) (u : List Char) :
    alnumRun (u ++ w) = ((alnumRun u).1, (alnumRun u).2 ++ w) := by
  obtain ⟨ht, hd⟩ := takeWhile_ws_ext (fun c hc => space_not_alnum hc) hw u
  unfold alnumRun
  rw [ht, hd]

theorem varGroupsF_space_head {w : List Char} (hw : w.all isSpaceC = true) (fuel : Nat) :
    varGroupsF fuel w = ([], w) := by
  cases fuel with
  | zero => rfl
  | succ f =>
    cases w with
    | nil => rfl
    | cons c r =>
      rw [List.all_cons, Bool.and_eq_true] at hw
      show varGroupsF (f + 1) (c :: r) = ([], c :: r)
      simp only [varGroupsF]
      rw [if_neg (by rw [space_not_sep hw.1]; exact Bool.false_ne_true)]

theorem varGroupsF_ws_ext {w : List Char} (hw : w.all isSpaceC = true) :
    ∀ (fuel : Nat) (u : List Char),
      varGroupsF fuel (u ++ w) = ((varGroupsF fuel u).1, (varGroupsF fuel u).2 ++ w) := by
  intro fuel
  induction fuel with
  | zero => intro u; rfl
  | succ f ih =>
    intro u
    cases u with
    | nil =>
      rw [List.nil_append]
      exact varGroupsF_space_head hw (f + 1)
    | cons c r =>
      rw [List.cons_append]
      simp only [varGroupsF]
      obtain ⟨ht, hd⟩ := takeWhile_ws_ext (fun x hx => space_not_alnum hx) hw r
      rw [ht, hd]
      by_cases hsep : isSepC c = true
      · rw [if_pos hsep, if_pos hsep]
        by_cases hg : (r.takeWhile Char.isAlphanum).isEmpty = true
        · rw [if_pos hg, if_pos hg]
          rfl
        · rw [if_neg hg, if_neg hg, ih]
      · rw [if_neg hsep, if_neg hsep]
        rfl

theorem varGroups_ws_ext {w : List Char} (hw : w.all isSpaceC = true) (u : List Char) :
    varGroups (u ++ w) = ((varGroups u).1, (varGroups u).2 ++ w) := by
  unfold varGroups
  rw [varGroupsF_ws_ext hw]
  rw [@varGroupsF_fuel ((u ++ w).length) u.length u
    (by rw [List.length_append]; exact Nat.le_add_right _ _) (Nat.le_refl _)]

theorem varAttempt_ws_ext {w : List Char} (hw : w.all isSpaceC = true) (u : List Char) :
    varAttempt (u ++ w) = (varAttempt u).map (fun gr => (gr.1, gr.2 ++ w)) := by
  cases u with
  | nil =>
    simp only [List.nil_append]
    cases w with
    | nil => rfl
    | cons c r =>
      rw [List.all_cons, Bool.and_eq_true] at hw
      show (if c = '-' then
          if (alnumRun r).1.isEmpty = true then none
          else some (c :: ((alnumRun r).1 ++ (varGroups (alnumRun r).2).1),
            (varGroups (alnumRun r).2).2)
        else none) = none
      rw [if_neg]
      intro hc
      subst hc
      have := hw.1
      rw [show isSpaceC '-' = false from by decide] at this
      exact Bool.false_ne_true this
  | cons c r =>
    show (if c = '-' then
        if (alnumRun (r ++ w)).1.isEmpty = true then none
        else some (c :: ((alnumRun (r ++ w)).1 ++ (varGroups (alnumRun (r ++ w)).2).1),
          (varGroups (alnumRun (r ++ w)).2).2)
      else none) =
      Option.map (fun gr : List Char × List Char => (gr.1, gr.2 ++ w))
        (if c = '-' then
          if (alnumRun r).1.isEmpty = true then none
          else some (c :: ((alnumRun r).1 ++ (varGroups (alnumRun r).2).1),
            (varGroups (alnumRun r).2).2)
        else none)
    rw [alnumRun_ws_ext hw r]
    by_cases hc : c = '-'
    · rw [if_pos hc, if_pos hc]
      by_cases he : ((alnumRun r).1).isEmpty = true
      · rw [if_pos he, if_pos he]
        rfl
      · rw [if_neg he, if_neg he]
        show some (c :: ((alnumRun r).1 ++ (varGroups ((alnumRun r).2 ++ w)).1),
            (varGroups ((alnumRun r).2 ++ w)).2) = _
        rw [varGroups_ws_ext hw]
        rfl
    · rw [if_neg hc, if_neg hc]
      rfl

theorem groupCands_ws_ext {α : Type _} {w : List Char} {a1 a2 : Option (α × List Char)}
    (h : a1 = a2.map (fun gr => (gr.1, gr.2 ++ w))) (u : List Char) :
    groupCands a1 (u ++ w) =
      (groupCands a2 u).map (fun pc => (pc.1, pc.2 ++ w)) := by
  subst h
  cases a2 with
  | none => rfl
  | some gr => rfl

theorem preCands_ws_ext {w : List Char} (hw : w.all isSpaceC = true) (u : List Char) :
    preCands (u ++ w) = (preCands u).map (fun pc => (pc.1, pc.2 ++ w)) :=
  groupCands_ws_ext (preAttempt_ws_ext hw u) u

theorem devCands_ws_ext {w : List Char} (hw : w.all isSpaceC = true) (u : List Char) :
    devCands (u ++ w) = (devCands u).map (fun pc => (pc.1, pc.2 ++ w)) :=
  groupCands_ws_ext (devAttempt_ws_ext hw u) u

theorem varCands_ws_ext {w : List Char} (hw : w.all isSpaceC = true) (u : List Char) :
    varCands (u ++ w) = (varCands u).map (fun pc => (pc.1, pc.2 ++ w)) :=
  groupCands_ws_ext (varAttempt_ws_ext hw u) u

theorem postCands_ws_ext {w : List Char} (hw : w.all isSpaceC = true) (u : List Char) :
    postCands (u ++ w) = (postCands u).map (fun pc => (pc.1, pc.2 ++ w)) := by
  unfold postCands
  rw [postAlt1_ws_ext hw, postAlt2_ws_ext hw]
  rw [List.map_append, List.map_append, List.map_map, List.map_map]
  cases postAlt1 u with
  | none => rfl
  | some gr => rfl

theorem devBlock_ws_ext {w : List Char} (hw : w.all isSpaceC = true) (u : List Char) :
    devBlock (u ++ w) = (devBlock u).map (fun tc => (tc.1, tc.2 ++ w)) := by
  unfold devBlock
  rw [devCands_ws_ext hw]
  generalize devCands u = l
  induction l with
  | nil => rfl
  | cons dc dcs ih =>
    simp only [List.map_cons, List.flatMap_cons, List.map_append, ih]
    congr 1
    rw [varCands_ws_ext hw, List.map_map, List.map_map]
    rfl

theorem postBlock_ws_ext {w : List Char} (hw : w.all isSpaceC = true) (u : List Char) :
    postBlock (u ++ w) = (postBlock u).map (fun tc => (tc.1, tc.2 ++ w)) := by
  unfold postBlock
  rw [postCands_ws_ext hw]
  generalize postCands u = l
  induction l with
  | nil => rfl
  | cons pc pcs ih =>
    simp only [List.map_cons, List.flatMap_cons, List.map_append, ih]
    congr 1
    rw [devBlock_ws_ext hw, List.map_map, List.map_map]
    rfl

theorem tailCands_ws_ext {w : List Char} (hw : w.all isSpaceC = true) (u : List Char) :
    tailCands (u ++ w) = (tailCands u).map (fun tc => (tc.1, tc.2 ++ w)) := by
  unfold tailCands
  rw [preCands_ws_ext hw]
  generalize preCands u = l
  induction l with
  | nil => rfl
  | cons pc pcs ih =>
    simp only [List.map_cons, List.flatMap_cons, List.map_append, ih]
    congr 1
    rw [postBlock_ws_ext hw, List.map_map, List.map_map]
    rfl

theorem firstFull_ws_ext {α : Type _} {w : List Char} (hw : w.all isSpaceC = true) :
    ∀ l : List (α × List Char),
      firstFull (l.map (fun x => (x.1, x.2 ++ w))) = firstFull l
  | [] => rfl
  | (x, r) :: rest => by
    simp only [List.map_cons]
    show (if (r ++ w).all isSpaceC = true then some x
        else firstFull (rest.map (fun p : α × List Char => (p.1, p.2 ++ w)))) =
      (if r.all isSpaceC = true then some x else firstFull rest)
    rw [List.all_append, hw, Bool.and_true]
    by_cases hr : r.all isSpaceC = true
    · rw [if_pos hr, if_pos hr]
    · rw [if_neg hr, if_neg hr]
      exact firstFull_ws_ext hw rest

/-- Whole-subexploration whitespace transfer for each block level. -/
theorem firstFull_varCands_ws {w : List Char} (hw : w.all isSpaceC = true) (u : List Char) :
    firstFull (varCands (u ++ w)) = firstFull (varCands u) := by
  rw [varCands_ws_ext hw, firstFull_ws_ext hw]

theorem firstFull_devBlock_ws {w : List Char} (hw : w.all isSpaceC = true) (u : List Char) :
    firstFull (devBlock (u ++ w)) = firstFull (devBlock u) := by
  rw [devBlock_ws_ext hw, firstFull_ws_ext hw]

theorem firstFull_postBlock_ws {w : List Char} (hw : w.all isSpaceC = true) (u : List Char) :
    firstFull (postBlock (u ++ w)) = firstFull (postBlock u) := by
  rw [postBlock_ws_ext hw, firstFull_ws_ext hw]

theorem firstFull_tailCands_ws {w : List Char} (hw : w.all isSpaceC = true) (u : List Char) :
    firstFull (tailCands (u ++ w)) = firstFull (tailCands u) := by
  rw [tailCands_ws_ext hw, firstFull_ws_ext hw]

/-! ### The exploration as a first-success scan over group outcomes -/

/-- First `some` of a list of optional results (alternation order). -/
def firstSome {γ : Type _} : List (Option γ) → Option γ
  | [] => none
  | o :: rest =>
    match o with
    | some x => some x
    | none => firstSome rest

theorem firstFull_append {α : Type _} :
    ∀ l₁ l₂ : List (α × List Char),
      firstFull (l₁ ++ l₂) =
        (match firstFull l₁ with
          | some x => some x
          | none => firstFull l₂)
  | [], l₂ => rfl
  | (a, r) :: l, l₂ => by
    show (if r.all isSpaceC = true then some a else firstFull (l ++ l₂)) =
      (match (if r.all isSpaceC = true then some a else firstFull l) with
        | some x => some x
        | none => firstFull l₂)
    by_cases hr : r.all isSpaceC = true
    · rw [if_pos hr, if_pos hr]
    · rw [if_neg hr, if_neg hr]
      exact firstFull_append l l₂

theorem firstFull_map_payload {α β : Type _} (f : α → β) :
    ∀ l : List (α × List Char),
      firstFull (l.map (fun tc => (f tc.1, tc.2))) = (firstFull l).map f
  | [] => rfl
  | (a, r) :: rest => by
    simp only [List.map_cons]
    show (if r.all isSpaceC = true then some (f a)
        else firstFull (rest.map (fun tc => (f tc.1, tc.2)))) =
      (if r.all isSpaceC = true then some a else firstFull rest).map f
    by_cases hr : r.all isSpaceC = true
    · rw [if_pos hr, if_pos hr]
      rfl
    · rw [if_neg hr, if_neg hr]
      exact firstFull_map_payload f rest

theorem firstFull_flatMap {α β γ : Type _} (e : α → β → γ)
    (inner : List Char → List (β × List Char)) :
    ∀ outer : List (α × List Char),
      firstFull (outer.flatMap fun pc => (inner pc.2).map fun tc => (e pc.1 tc.1, tc.2)) =
        firstSome (outer.map fun pc => (firstFull (inner pc.2)).map (e pc.1))
  | [] => rfl
  | pc :: rest => by
    simp only [List.flatMap_cons, List.map_cons]
    rw [firstFull_append, firstFull_map_payload (e pc.1) (inner pc.2),
      firstFull_flatMap e inner rest]
    cases hx : firstFull (inner pc.2) with
    | none => rfl
    | some b => rfl

theorem firstFull_tailCands (t : List Char) :
    firstFull (tailCands t) =
      firstSome ((preCands t).map fun pc =>
        (firstFull (postBlock pc.2)).map
          (fun b : Option RawLN × Option RawLN × Option (List Char) =>
            (⟨pc.1, b.1, b.2.1, b.2.2⟩ : RawGroups))) :=
  firstFull_flatMap
    (fun (a : Option RawLN) (b : Option RawLN × Option RawLN × Option (List Char)) =>
      (⟨a, b.1, b.2.1, b.2.2⟩ : RawGroups))
    postBlock (preCands t)

theorem firstFull_postBlock (t : List Char) :
    firstFull (postBlock t) =
      firstSome ((postCands t).map fun pc =>
        (firstFull (devBlock pc.2)).map
          (fun b : Option RawLN × Option (List Char) => (pc.1, b.1, b.2))) :=
  firstFull_flatMap
    (fun (a : Option RawLN) (b : Option RawLN × Option (List Char)) => (a, b.1, b.2))
    devBlock (postCands t)

theorem firstFull_devBlock (t : List Char) :
    firstFull (devBlock t) =
      firstSome ((devCands t).map fun dc =>
        (firstFull (varCands dc.2)).map (fun b : Option (List Char) => (dc.1, b))) :=
  firstFull_flatMap
    (fun (a : Option RawLN) (b : Option (List Char)) => (a, b)) varCands (devCands t)

theorem firstSome_mem {γ : Type _} : ∀ {l : List (Option γ)} {x : γ},
    firstSome l = some x → some x ∈ l := by
  intro l
  induction l with
  | nil => intro x h; cases h
  | cons o rest ih =>
    intro x h
    cases o with
    | some y =>
      have : some y = some x := h
      rw [this]
      exact List.mem_cons_self _ _
    | none =>
      exact List.mem_cons_of_mem _ (ih h)

theorem firstSome_singleton {γ : Type _} (o : Option γ) : firstSome [o] = o := by
  cases o <;> rfl

theorem firstSome_pair_eq {γ : Type _} (o₁ o₂ : Option γ) :
    firstSome [o₁, o₂] =
      (match o₁ with
        | some x => some x
        | none => o₂) := by
  cases o₁ with
  | some x => rfl
  | none => cases o₂ <;> rfl

/-! ### What a successful group match looks like -/

theorem matchToken_spec {tok s ltr r : List Char} (h : matchToken tok s = some (ltr, r)) :
    lowers ltr = tok ∧ s = ltr ++ r := by
  unfold matchToken at h
  split_ifs at h with he
  have h2 := Option.some.inj h
  have hl : s.take tok.length = ltr := congrArg Prod.fst h2
  have hr : s.drop tok.length = r := congrArg Prod.snd h2
  subst hl
  subst hr
  exact ⟨he, (List.take_append_drop _ _).symm⟩

theorem firstToken_spec {s : List Char} {lr : List Char × List Char} :
    ∀ {toks : List (List Char)}, firstToken toks s = some lr →
      ∃ tok ∈ toks, matchToken tok s = some lr := by
  intro toks
  induction toks with
  | nil => intro h; cases h
  | cons t ts ih =>
    intro h
    unfold firstToken at h
    cases hm : matchToken t s with
    | some r2 =>
      rw [hm] at h
      exact ⟨t, List.mem_cons_self _ _, hm.trans h⟩
    | none =>
      rw [hm] at h
      obtain ⟨tok, hmem, hmt⟩ := ih h
      exact ⟨tok, List.mem_cons_of_mem _ hmem, hmt⟩

theorem preAttempt_spec {t : List Char} {p : RawLN} {r : List Char}
    (h : preAttempt t = some (p, r)) :
    ∃ tok ∈ preTokens, ∃ ltr, p.letter = some ltr ∧ lowers ltr = tok := by
  unfold preAttempt at h
  split at h
  · cases h
  · rename_i ls hm
    obtain ⟨tok, hmem, hmt⟩ := firstToken_spec hm
    obtain ⟨hlow, -⟩ := matchToken_spec hmt
    have hinj := Option.some.inj h
    have hp : (⟨some ls.1, (numOpt (sepOpt ls.2)).1⟩ : RawLN) = p := congrArg Prod.fst hinj
    exact ⟨tok, hmem, ls.1, by rw [← hp], hlow⟩

theorem devAttempt_spec {t : List Char} {p : RawLN} {r : List Char}
    (h : devAttempt t = some (p, r)) :
    ∃ ltr, p.letter = some ltr ∧ lowers ltr = "dev".data := by
  unfold devAttempt at h
  split at h
  · cases h
  · rename_i ls hm
    obtain ⟨hlow, -⟩ := matchToken_spec hm
    have hinj := Option.some.inj h
    have hp : (⟨some ls.1, (numOpt (sepOpt ls.2)).1⟩ : RawLN) = p := congrArg Prod.fst hinj
    exact ⟨ls.1, by rw [← hp], hlow⟩

theorem postAlt1_spec {t : List Char} {q : RawLN} {r : List Char}
    (h : postAlt1 t = some (q, r)) :
    ∃ ds, q.letter = none ∧ q.num = some ds ∧ ds.isEmpty = false := by
  unfold postAlt1 at h
  split at h
  · rename_i c r'
    split_ifs at h with hdash hds
    have hinj := Option.some.inj h
    have hq : (⟨none, some (digitRun r').1⟩ : RawLN) = q := congrArg Prod.fst hinj
    refine ⟨(digitRun r').1, by rw [← hq], by rw [← hq], ?_⟩
    rw [Bool.not_eq_true] at hds
    exact hds
  · cases h

theorem postAlt2Tail_letter {l rest : List Char} {q : RawLN} {r : List Char}
    (h : (q, r) ∈ postAlt2Tail l rest) : q.letter = some l := by
  cases rest with
  | nil =>
    rw [postAlt2Tail_nil, List.mem_singleton] at h
    injection h with hq hr
    rw [hq]
  | cons c r' =>
    rw [postAlt2Tail_cons] at h
    split_ifs at h with h1 h2 h3
    · rcases List.mem_pair.mp h with he | he <;>
        (injection he with hq hr; rw [hq])
    · rcases List.mem_pair.mp h with he | he <;>
        (injection he with hq hr; rw [hq])
    · rw [List.mem_singleton] at h
      injection h with hq hr
      rw [hq]
    · rw [List.mem_singleton] at h
      injection h with hq hr
      rw [hq]

theorem postAlt2_spec {t : List Char} {q : RawLN} {r : List Char}
    (h : (q, r) ∈ postAlt2 t) :
    ∃ tok ∈ postTokens, ∃ ltr, q.letter = some ltr ∧ lowers ltr = tok := by
  unfold postAlt2 at h
  split at h
  · cases h
  · rename_i ls hm
    obtain ⟨tok, hmem, hmt⟩ := firstToken_spec hm
    obtain ⟨hlow, -⟩ := matchToken_spec hmt
    exact ⟨tok, hmem, ls.1, postAlt2Tail_letter h, hlow⟩

theorem varGroupsF_split : ∀ (f : Nat) (s : List Char),
    (varGroupsF f s).1 ++ (varGroupsF f s).2 = s
  | 0, s => List.nil_append s
  | _ + 1, [] => List.nil_append []
  | f + 1, c :: r => by
    simp only [varGroupsF]
    by_cases hsep : isSepC c = true
    · rw [if_pos hsep]
      by_cases hg : (r.takeWhile Char.isAlphanum).isEmpty = true
      · rw [if_pos hg]
        rfl
      · rw [if_neg hg]
        show c :: (r.takeWhile Char.isAlphanum ++
            (varGroupsF f (r.dropWhile Char.isAlphanum)).1) ++
            (varGroupsF f (r.dropWhile Char.isAlphanum)).2 = c :: r
        rw [List.cons_append, List.append_assoc,
          varGroupsF_split f (r.dropWhile Char.isAlphanum),
          List.takeWhile_append_dropWhile]
    · rw [if_neg hsep]
      rfl

theorem varAttempt_spec {t : List Char} {res r : List Char}
    (h : varAttempt t = some (res, r)) :
    t = res ++ r ∧ ∃ body, res = '-' :: body := by
  unfold varAttempt at h
  split at h
  · rename_i c r'
    split_ifs at h with hdash hrun
    have hinj := Option.some.inj h
    have hres : c :: ((alnumRun r').1 ++ (varGroups (alnumRun r').2).1) = res :=
      congrArg Prod.fst hinj
    have hrem : (varGroups (alnumRun r').2).2 = r := congrArg Prod.snd hinj
    subst hdash
    constructor
    · rw [← hres, ← hrem, List.cons_append, List.append_assoc,
        show (varGroups (alnumRun r').2).1 ++ (varGroups (alnumRun r').2).2 =
          (alnumRun r').2 from varGroupsF_split _ _,
        show (alnumRun r').1 ++ (alnumRun r').2 = r' from
          List.takeWhile_append_dropWhile _ _]
    · exact ⟨_, hres.symm⟩
  · cases h

/-! ### Per-level extraction from a successful full match -/

theorem varLevel_extract {X : List Char} {gv : Option (List Char)}
    (h : firstFull (varCands X) = some gv) :
    (∃ raw r, gv = some raw ∧ varAttempt X = some (raw, r) ∧ r.all isSpaceC = true ∧
        X = raw ++ r) ∨
      (gv = none ∧ X.all isSpaceC = true) := by
  unfold varCands groupCands at h
  cases hva : varAttempt X with
  | none =>
    rw [hva] at h
    right
    have h' : (if X.all isSpaceC = true then some (none : Option (List Char)) else none) =
        some gv := h
    split_ifs at h' with hX
    exact ⟨(Option.some.inj h').symm, hX⟩
  | some gr =>
    obtain ⟨raw0, r0⟩ := gr
    rw [hva] at h
    have h' : (if r0.all isSpaceC = true then some (some raw0) else
        if X.all isSpaceC = true then some (none : Option (List Char)) else none) =
        some gv := h
    split_ifs at h' with h1 h2
    · left
      exact ⟨raw0, r0, (Option.some.inj h').symm, rfl, h1, (varAttempt_spec hva).1⟩
    · exfalso
      obtain ⟨hsplit, body, hbody⟩ := varAttempt_spec hva
      rw [hsplit, hbody, List.cons_append, List.all_cons, Bool.and_eq_true] at h2
      exact absurd h2.1 (by decide)

theorem devLevel_extract {Y : List Char} {gd : Option RawLN} {gv : Option (List Char)}
    (h : firstFull (devBlock Y) = some (gd, gv)) :
    (∃ d X, gd = some d ∧ devAttempt Y = some (d, X) ∧
        firstFull (varCands X) = some gv) ∨
      (gd = none ∧ firstFull (varCands Y) = some gv) := by
  rw [firstFull_devBlock] at h
  unfold devCands groupCands at h
  cases hda : devAttempt Y with
  | none =>
    rw [hda] at h
    simp only [List.nil_append, List.map_cons, List.map_nil] at h
    rw [firstSome_singleton] at h
    right
    cases hvy : firstFull (varCands Y) with
    | none => rw [hvy] at h; cases h
    | some b =>
      rw [hvy] at h
      have hinj := Option.some.inj h
      have e1 : (none : Option RawLN) = gd := congrArg Prod.fst hinj
      have e2 : b = gv := congrArg Prod.snd hinj
      exact ⟨e1.symm, by rw [e2]⟩
  | some dc =>
    obtain ⟨d, X⟩ := dc
    rw [hda] at h
    simp only [List.singleton_append, List.map_cons, List.map_nil] at h
    rw [firstSome_pair_eq] at h
    cases hv : firstFull (varCands X) with
    | some b =>
      rw [hv] at h
      have hinj := Option.some.inj h
      have e1 : some d = gd := congrArg Prod.fst hinj
      have e2 : b = gv := congrArg Prod.snd hinj
      left
      refine ⟨d, X, e1.symm, rfl, ?_⟩
      rw [hv, e2]
    | none =>
      rw [hv] at h
      right
      cases hvy : firstFull (varCands Y) with
      | none => rw [hvy] at h; cases h
      | some b =>
        rw [hvy] at h
        have hinj := Option.some.inj h
        have e1 : (none : Option RawLN) = gd := congrArg Prod.fst hinj
        have e2 : b = gv := congrArg Prod.snd hinj
        exact ⟨e1.symm, by rw [e2]⟩

theorem postLevel_extract {Z : List Char} {gp gd : Option RawLN} {gv : Option (List Char)}
    (h : firstFull (postBlock Z) = some (gp, gd, gv)) :
    (∃ q Y, gp = some q ∧ (postAlt1 Z = some (q, Y) ∨ (q, Y) ∈ postAlt2 Z) ∧
        firstFull (devBlock Y) = some (gd, gv)) ∨
      (gp = none ∧ firstFull (devBlock Z) = some (gd, gv)) := by
  rw [firstFull_postBlock] at h
  have hmem := firstSome_mem h
  rw [List.mem_map] at hmem
  obtain ⟨pc, hpc, hF⟩ := hmem
  obtain ⟨pc1, pc2⟩ := pc
  cases hdb : firstFull (devBlock pc2) with
  | none => rw [hdb] at hF; cases hF
  | some b =>
    obtain ⟨b1, b2⟩ := b
    rw [hdb] at hF
    have hinj := Option.some.inj hF
    have e1 : pc1 = gp := congrArg Prod.fst hinj
    have e2 : b1 = gd := congrArg (fun x : Option RawLN × Option RawLN × Option (List Char) =>
      x.2.1) hinj
    have e3 : b2 = gv := congrArg (fun x : Option RawLN × Option RawLN × Option (List Char) =>
      x.2.2) hinj
    have hdb2 : firstFull (devBlock pc2) = some (gd, gv) := by rw [hdb, e2, e3]
    unfold postCands at hpc
    rw [List.mem_append, List.mem_append] at hpc
    rcases hpc with (hA | hB) | hC
    · left
      cases ha : postAlt1 Z with
      | none => rw [ha] at hA; cases hA
      | some gr =>
        obtain ⟨q, Y⟩ := gr
        rw [ha, List.mem_singleton] at hA
        have f1 : pc1 = some q := congrArg Prod.fst hA
        have f2 : pc2 = Y := congrArg Prod.snd hA
        exact ⟨q, pc2, by rw [← e1, f1], Or.inl (by rw [f2]), hdb2⟩
    · left
      rw [List.mem_map] at hB
      obtain ⟨gr, hgr, heq⟩ := hB
      obtain ⟨q, Y⟩ := gr
      have f1 : pc1 = some q := (congrArg Prod.fst heq).symm
      have f2 : pc2 = Y := (congrArg Prod.snd heq).symm
      exact ⟨q, pc2, by rw [← e1, f1], Or.inr (by rw [f2]; exact hgr), hdb2⟩
    · right
      rw [List.mem_singleton] at hC
      have f1 : pc1 = none := congrArg Prod.fst hC
      have f2 : pc2 = Z := congrArg Prod.snd hC
      exact ⟨by rw [← e1, f1], by rw [← f2]; exact hdb2⟩

theorem tailLevel_extract {t : List Char} {g : RawGroups}
    (h : firstFull (tailCands t) = some g) :
    (∃ p Z, g.pre = some p ∧ preAttempt t = some (p, Z) ∧
        firstFull (postBlock Z) = some (g.post, g.dev, g.variant)) ∨
      (g.pre = none ∧ firstFull (postBlock t) = some (g.post, g.dev, g.variant)) := by
  rw [firstFull_tailCands] at h
  have hmem := firstSome_mem h
  rw [List.mem_map] at hmem
  obtain ⟨pc, hpc, hF⟩ := hmem
  obtain ⟨pc1, pc2⟩ := pc
  cases hdb : firstFull (postBlock pc2) with
  | none => rw [hdb] at hF; cases hF
  | some b =>
    obtain ⟨b1, b2, b3⟩ := b
    rw [hdb] at hF
    have hinj := Option.some.inj hF
    unfold preCands groupCands at hpc
    cases ha : preAttempt t with
    | none =>
      rw [ha] at hpc
      rw [List.nil_append, List.mem_singleton] at hpc
      right
      have f1 : pc1 = none := congrArg Prod.fst hpc
      have f2 : pc2 = t := congrArg Prod.snd hpc
      rw [← hinj]
      exact ⟨by rw [f1], by rw [← f2]; exact hdb⟩
    | some gr =>
      obtain ⟨p, Z⟩ := gr
      rw [ha] at hpc
      rcases List.mem_pair.mp hpc with he | he
      · left
        have f1 : pc1 = some p := congrArg Prod.fst he
        have f2 : pc2 = Z := congrArg Prod.snd he
        rw [← hinj]
        exact ⟨p, pc2, by rw [f1], by rw [f2], hdb⟩
      · right
        have f1 : pc1 = none := congrArg Prod.fst he
        have f2 : pc2 = t := congrArg Prod.snd he
        rw [← hinj]
        exact ⟨by rw [f1], by rw [← f2]; exact hdb⟩

/-! ### Deterministic behaviour of the grammar on canonical spellings -/

theorem digit_not_sep {c : Char} (h : c.isDigit = true) : isSepC c = false := by
  cases hs : isSepC c
  · rfl
  · simp only [isSepC, Bool.or_eq_true, beq_iff_eq] at hs
    rcases hs with (rfl | rfl) | rfl <;> exact absurd h (by decide)

theorem digit_toLower_ne {d b : Char} (hd : d.isDigit = true) (hb : b.isDigit = false) :
    d.toLower ≠ b := by
  rw [toLower_of_digit hd]
  intro h
  rw [h] at hd
  rw [hd] at hb
  cases hb

theorem matchToken_none_head {a c : Char} {tok' s' : List Char}
    (h : c.toLower ≠ a) : matchToken (a :: tok') (c :: s') = none := by
  unfold matchToken
  rw [if_neg]
  intro he
  rw [List.length_cons, List.take_succ_cons] at he
  unfold lowers at he
  rw [List.map_cons] at he
  injection he with h1 h2
  exact h h1

theorem matchToken_none_two {a b c d : Char} {tok' s' : List Char}
    (h : d.toLower ≠ b) : matchToken (a :: b :: tok') (c :: d :: s') = none := by
  unfold matchToken
  rw [if_neg]
  intro he
  rw [List.length_cons, List.length_cons, List.take_succ_cons, List.take_succ_cons] at he
  unfold lowers at he
  rw [List.map_cons, List.map_cons] at he
  injection he with h1 h2
  injection h2 with h3 h4
  exact h h3

theorem matchToken_one {a c : Char} {s' : List Char} (h : c.toLower = a) :
    matchToken [a] (c :: s') = some ([c], s') := by
  unfold matchToken
  rw [if_pos]
  · show some ((c :: s').take 1, (c :: s').drop 1) = some ([c], s')
    rfl
  · show lowers [c] = [a]
    show [c.toLower] = [a]
    rw [h]

theorem matchToken_two {a b c d : Char} {s' : List Char} (h1 : c.toLower = a)
    (h2 : d.toLower = b) : matchToken [a, b] (c :: d :: s') = some ([c, d], s') := by
  unfold matchToken
  rw [if_pos]
  · show some ((c :: d :: s').take 2, (c :: d :: s').drop 2) = some ([c, d], s')
    rfl
  · show [c.toLower, d.toLower] = [a, b]
    rw [h1, h2]

theorem matchToken_post (X : List Char) :
    matchToken "post".data ('p' :: 'o' :: 's' :: 't' :: X) = some (['p','o','s','t'], X) := by
  unfold matchToken
  rw [if_pos]
  · show some (('p' :: 'o' :: 's' :: 't' :: X).take 4, ('p' :: 'o' :: 's' :: 't' :: X).drop 4) =
      some (['p','o','s','t'], X)
    rfl
  · show lowers ['p','o','s','t'] = "post".data
    decide

theorem matchToken_dev (X : List Char) :
    matchToken "dev".data ('d' :: 'e' :: 'v' :: X) = some (['d','e','v'], X) := by
  unfold matchToken
  rw [if_pos]
  · show some (('d' :: 'e' :: 'v' :: X).take 3, ('d' :: 'e' :: 'v' :: X).drop 3) =
      some (['d','e','v'], X)
    rfl
  · show lowers ['d','e','v'] = "dev".data
    decide

theorem firstToken_cons_none {t : List Char} {ts : List (List Char)} {s : List Char}
    (h : matchToken t s = none) : firstToken (t :: ts) s = firstToken ts s := by
  show (match matchToken t s with
    | some r => some r
    | none => firstToken ts s) = firstToken ts s
  rw [h]

theorem firstToken_cons_some {t : List Char} {ts : List (List Char)} {s : List Char}
    {lr : List Char × List Char} (h : matchToken t s = some lr) :
    firstToken (t :: ts) s = some lr := by
  show (match matchToken t s with
    | some r => some r
    | none => firstToken ts s) = some lr
  rw [h]

theorem sepOpt_cons_sep {c : Char} (hc : isSepC c = true) (X : List Char) :
    sepOpt (c :: X) = X := by
  show (if isSepC c = true then X else c :: X) = X
  rw [if_pos hc]

theorem sepOpt_cons_notsep {c : Char} (hc : isSepC c = false) (X : List Char) :
    sepOpt (c :: X) = c :: X := by
  show (if isSepC c = true then X else c :: X) = c :: X
  rw [if_neg (by rw [hc]; exact Bool.false_ne_true)]

theorem natRepr_head_digit (n : Nat) :
    ∃ d ds, natRepr n = d :: ds ∧ d.isDigit = true := by
  obtain ⟨d, ds, hds⟩ := List.exists_cons_of_ne_nil (natRepr_ne_nil n)
  refine ⟨d, ds, hds, ?_⟩
  have hall := natRepr_all_digits n
  rw [hds, List.all_cons, Bool.and_eq_true] at hall
  exact hall.1

theorem sepOpt_digits (n : Nat) (rest : List Char) :
    sepOpt (natRepr n ++ rest) = natRepr n ++ rest := by
  obtain ⟨d, ds, hds, hdig⟩ := natRepr_head_digit n
  rw [hds, List.cons_append]
  exact sepOpt_cons_notsep (digit_not_sep hdig) _

theorem numOpt_digits (n : Nat) {rest : List Char} (hrest : NoDigitHead rest) :
    numOpt (natRepr n ++ rest) = (some (natRepr n), rest) := by
  simp only [numOpt, digitRun]
  obtain ⟨ht, hd2⟩ := digitRun_append (natRepr_all_digits n) hrest
  rw [ht, hd2, if_neg (by rw [natRepr_isEmpty]; exact Bool.false_ne_true)]

theorem preAttempt_canon_a (n : Nat) {rest : List Char} (hrest : NoDigitHead rest) :
    preAttempt ('a' :: (natRepr n ++ rest)) =
      some (⟨some ['a'], some (natRepr n)⟩, rest) := by
  obtain ⟨d, ds, hds, hdig⟩ := natRepr_head_digit n
  unfold preAttempt
  rw [sepOpt_cons_notsep (by decide) _]
  rw [show firstToken preTokens ('a' :: (natRepr n ++ rest)) =
      some (['a'], natRepr n ++ rest) from by
    rw [hds, List.cons_append]
    unfold preTokens
    rw [firstToken_cons_none (matchToken_none_two (digit_toLower_ne hdig (by decide)))]
    rw [firstToken_cons_some (matchToken_one (by decide))]]
  show some ((⟨some ['a'], (numOpt (sepOpt (natRepr n ++ rest))).1⟩ : RawLN),
      (numOpt (sepOpt (natRepr n ++ rest))).2) =
    some ((⟨some ['a'], some (natRepr n)⟩ : RawLN), rest)
  rw [sepOpt_digits, numOpt_digits n hrest]

theorem preAttempt_canon_b (n : Nat) {rest : List Char} (hrest : NoDigitHead rest) :
    preAttempt ('b' :: (natRepr n ++ rest)) =
      some (⟨some ['b'], some (natRepr n)⟩, rest) := by
  obtain ⟨d, ds, hds, hdig⟩ := natRepr_head_digit n
  unfold preAttempt
  rw [sepOpt_cons_notsep (by decide) _]
  rw [show firstToken preTokens ('b' :: (natRepr n ++ rest)) =
      some (['b'], natRepr n ++ rest) from by
    rw [hds, List.cons_append]
    unfold preTokens
    rw [firstToken_cons_none (matchToken_none_head (by decide))]
    rw [firstToken_cons_none (matchToken_none_head (by decide))]
    rw [firstToken_cons_none (matchToken_none_two (digit_toLower_ne hdig (by decide)))]
    rw [firstToken_cons_some (matchToken_one (by decide))]]
  show some ((⟨some ['b'], (numOpt (sepOpt (natRepr n ++ rest))).1⟩ : RawLN),
      (numOpt (sepOpt (natRepr n ++ rest))).2) =
    some ((⟨some ['b'], some (natRepr n)⟩ : RawLN), rest)
  rw [sepOpt_digits, numOpt_digits n hrest]

theorem preAttempt_canon_rc (n : Nat) {rest : List Char} (hrest : NoDigitHead rest) :
    preAttempt ('r' :: 'c' :: (natRepr n ++ rest)) =
      some (⟨some ['r','c'], some (natRepr n)⟩, rest) := by
  unfold preAttempt
  rw [sepOpt_cons_notsep (by decide) _]
  rw [show firstToken preTokens ('r' :: 'c' :: (natRepr n ++ rest)) =
      some (['r','c'], natRepr n ++ rest) from by
    unfold preTokens
    rw [firstToken_cons_none (matchToken_none_head (by decide))]
    rw [firstToken_cons_none (matchToken_none_head (by decide))]
    rw [firstToken_cons_none (matchToken_none_head (by decide))]
    rw [firstToken_cons_none (matchToken_none_head (by decide))]
    rw [firstToken_cons_none (matchToken_none_head (by decide))]
    rw [firstToken_cons_none (matchToken_none_head (by decide))]
    rw [firstToken_cons_none (matchToken_none_head (by decide))]
    rw [firstToken_cons_some (matchToken_two (by decide) (by decide))]]
  show some ((⟨some ['r','c'], (numOpt (sepOpt (natRepr n ++ rest))).1⟩ : RawLN),
      (numOpt (sepOpt (natRepr n ++ rest))).2) =
    some ((⟨some ['r','c'], some (natRepr n)⟩ : RawLN), rest)
  rw [sepOpt_digits, numOpt_digits n hrest]

theorem preAttempt_canon_m (n : Nat) {rest : List Char} (hrest : NoDigitHead rest) :
    preAttempt ('m' :: (natRepr n ++ rest)) =
      some (⟨some ['m'], some (natRepr n)⟩, rest) := by
  obtain ⟨d, ds, hds, hdig⟩ := natRepr_head_digit n
  unfold preAttempt
  rw [sepOpt_cons_notsep (by decide) _]
  rw [show firstToken preTokens ('m' :: (natRepr n ++ rest)) =
      some (['m'], natRepr n ++ rest) from by
    rw [hds, List.cons_append]
    unfold preTokens
    rw [firstToken_cons_none (matchToken_none_head (by decide))]
    rw [firstToken_cons_none (matchToken_none_head (by decide))]
    rw [firstToken_cons_none (matchToken_none_head (by decide))]
    rw [firstToken_cons_none (matchToken_none_head (by decide))]
    rw [firstToken_cons_none (matchToken_none_head (by decide))]
    rw [firstToken_cons_none (matchToken_none_head (by decide))]
    rw [firstToken_cons_none (matchToken_none_head (by decide))]
    rw [firstToken_cons_none (matchToken_none_head (by decide))]
    rw [firstToken_cons_none (matchToken_none_two (digit_toLower_ne hdig (by decide)))]
    rw [firstToken_cons_some (matchToken_one (by decide))]]
  show some ((⟨some ['m'], (numOpt (sepOpt (natRepr n ++ rest))).1⟩ : RawLN),
      (numOpt (sepOpt (natRepr n ++ rest))).2) =
    some ((⟨some ['m'], some (natRepr n)⟩ : RawLN), rest)
  rw [sepOpt_digits, numOpt_digits n hrest]

theorem preAttempt_dot_p (X : List Char) :
    preAttempt ('.' :: 'p' :: 'o' :: X) = none := by
  unfold preAttempt
  rw [sepOpt_cons_sep (by decide) _]
  rw [show firstToken preTokens ('p' :: 'o' :: X) = none from by
    unfold preTokens
    rw [firstToken_cons_none (matchToken_none_head (by decide))]
    rw [firstToken_cons_none (matchToken_none_head (by decide))]
    rw [firstToken_cons_none (matchToken_none_head (by decide))]
    rw [firstToken_cons_none (matchToken_none_head (by decide))]
    rw [firstToken_cons_none (matchToken_none_two (by decide))]
    rw [firstToken_cons_none (matchToken_none_two (by decide))]
    rw [firstToken_cons_none (matchToken_none_head (by decide))]
    rw [firstToken_cons_none (matchToken_none_head (by decide))]
    rw [firstToken_cons_none (matchToken_none_head (by decide))]
    rw [firstToken_cons_none (matchToken_none_head (by decide))]
    rfl]

theorem preAttempt_dot_d (X : List Char) :
    preAttempt ('.' :: 'd' :: X) = none := by
  unfold preAttempt
  rw [sepOpt_cons_sep (by decide) _]
  rw [show firstToken preTokens ('d' :: X) = none from by
    unfold preTokens
    rw [firstToken_cons_none (matchToken_none_head (by decide))]
    rw [firstToken_cons_none (matchToken_none_head (by decide))]
    rw [firstToken_cons_none (matchToken_none_head (by decide))]
    rw [firstToken_cons_none (matchToken_none_head (by decide))]
    rw [firstToken_cons_none (matchToken_none_head (by decide))]
    rw [firstToken_cons_none (matchToken_none_head (by decide))]
    rw [firstToken_cons_none (matchToken_none_head (by decide))]
    rw [firstToken_cons_none (matchToken_none_head (by decide))]
    rw [firstToken_cons_none (matchToken_none_head (by decide))]
    rw [firstToken_cons_none (matchToken_none_head (by decide))]
    rfl]

theorem postAlt1_cons_ne (c : Char) (X : List Char) (hc : ¬ c = '-') :
    postAlt1 (c :: X) = none := by
  show (if c = '-' then
      if (digitRun X).1.isEmpty = true then none
      else some ((⟨none, some (digitRun X).1⟩ : RawLN), (digitRun X).2)
    else none) = none
  rw [if_neg hc]

theorem postCands_canon (n : Nat) {rest : List Char} (hrest : NoDigitHead rest) :
    postCands ('.' :: 'p' :: 'o' :: 's' :: 't' :: (natRepr n ++ rest)) =
      [(some ⟨some ['p','o','s','t'], some (natRepr n)⟩, rest),
       (none, '.' :: 'p' :: 'o' :: 's' :: 't' :: (natRepr n ++ rest))] := by
  obtain ⟨d, ds, hds, hdig⟩ := natRepr_head_digit n
  obtain ⟨ht, hd2⟩ := digitRun_append (natRepr_all_digits n) hrest
  unfold postCands
  rw [postAlt1_cons_ne '.' _ (by decide)]
  rw [show postAlt2 ('.' :: 'p' :: 'o' :: 's' :: 't' :: (natRepr n ++ rest)) =
      [(⟨some ['p','o','s','t'], some (natRepr n)⟩, rest)] from by
    unfold postAlt2
    rw [sepOpt_cons_sep (by decide) _]
    rw [show firstToken postTokens ('p' :: 'o' :: 's' :: 't' :: (natRepr n ++ rest)) =
        some (['p','o','s','t'], natRepr n ++ rest) from by
      unfold postTokens
      rw [firstToken_cons_some (matchToken_post _)]]
    show postAlt2Tail ['p','o','s','t'] (natRepr n ++ rest) = _
    rw [hds, List.cons_append, postAlt2Tail_cons]
    rw [if_neg (by rw [digit_not_sep hdig]; exact Bool.false_ne_true)]
    rw [show digitRun (d :: (ds ++ rest)) = (d :: ds, rest) from by
      unfold digitRun
      rw [← List.cons_append, ← hds, ht, hd2]]
    rw [if_neg (show ¬((d :: ds).isEmpty = true) from Bool.false_ne_true)]]
  rfl

theorem postAlt2_dot_d (X : List Char) : postAlt2 ('.' :: 'd' :: X) = [] := by
  unfold postAlt2
  rw [sepOpt_cons_sep (by decide) _]
  rw [show firstToken postTokens ('d' :: X) = none from by
    unfold postTokens
    rw [firstToken_cons_none (matchToken_none_head (by decide))]
    rw [firstToken_cons_none (matchToken_none_head (by decide))]
    rw [firstToken_cons_none (matchToken_none_head (by decide))]
    rfl]

theorem postCands_dot_d (X : List Char) :
    postCands ('.' :: 'd' :: X) = [(none, '.' :: 'd' :: X)] := by
  unfold postCands
  rw [postAlt1_cons_ne '.' _ (by decide), postAlt2_dot_d]
  rfl

theorem devAttempt_canon (n : Nat) {rest : List Char} (hrest : NoDigitHead rest) :
    devAttempt ('.' :: 'd' :: 'e' :: 'v' :: (natRepr n ++ rest)) =
      some (⟨some ['d','e','v'], some (natRepr n)⟩, rest) := by
  unfold devAttempt
  rw [sepOpt_cons_sep (by decide) _, matchToken_dev]
  show some ((⟨some ['d','e','v'], (numOpt (sepOpt (natRepr n ++ rest))).1⟩ : RawLN),
      (numOpt (sepOpt (natRepr n ++ rest))).2) =
    some ((⟨some ['d','e','v'], some (natRepr n)⟩ : RawLN), rest)
  rw [sepOpt_digits, numOpt_digits n hrest]

/-! ### Field values produced by `_parse_letter_version` -/

theorem plv_of_pre_tok {ltr : List Char} {num : Option (List Char)} {tok : List Char}
    (hmem : tok ∈ preTokens) (hlow : lowers ltr = tok) :
    ∃ l n, _parse_letter_version (some ltr) num = some (l, n) ∧
      (l = "a" ∨ l = "b" ∨ l = "rc" ∨ l = "m") := by
  have hne : ltr ≠ [] := by
    intro he
    subst he
    rw [← hlow] at hmem
    exact absurd hmem (by decide)
  refine ⟨normLetter (String.mk tok), natOfDigits (num.getD []), ?_, ?_⟩
  · obtain ⟨c, cs, hcc⟩ := List.exists_cons_of_ne_nil hne
    subst hcc
    show (if (c :: cs).isEmpty = true then fallbackNumber num
        else some (normLetter (String.mk (lowers (c :: cs))), natOfDigits (num.getD []))) =
      some (normLetter (String.mk tok), natOfDigits (num.getD []))
    rw [if_neg (show ¬((c :: cs).isEmpty = true) from Bool.false_ne_true), hlow]
  · simp only [preTokens, List.mem_cons, List.not_mem_nil, or_false] at hmem
    rcases hmem with rfl | rfl | rfl | rfl | rfl | rfl | rfl | rfl | rfl | rfl <;> decide

theorem plv_of_post_tok {ltr : List Char} {num : Option (List Char)} {tok : List Char}
    (hmem : tok ∈ postTokens) (hlow : lowers ltr = tok) :
    ∃ n, _parse_letter_version (some ltr) num = some ("post", n) := by
  have hne : ltr ≠ [] := by
    intro he
    subst he
    rw [← hlow] at hmem
    exact absurd hmem (by decide)
  refine ⟨natOfDigits (num.getD []), ?_⟩
  obtain ⟨c, cs, hcc⟩ := List.exists_cons_of_ne_nil hne
  subst hcc
  show (if (c :: cs).isEmpty = true then fallbackNumber num
      else some (normLetter (String.mk (lowers (c :: cs))), natOfDigits (num.getD []))) =
    some ("post", natOfDigits (num.getD []))
  rw [if_neg (show ¬((c :: cs).isEmpty = true) from Bool.false_ne_true), hlow]
  simp only [postTokens, List.mem_cons, List.not_mem_nil, or_false] at hmem
  rcases hmem with rfl | rfl | rfl <;> rfl

theorem plv_of_dev_tok {ltr : List Char} {num : Option (List Char)}
    (hlow : lowers ltr = "dev".data) :
    ∃ n, _parse_letter_version (some ltr) num = some ("dev", n) := by
  have hne : ltr ≠ [] := by
    intro he
    subst he
    exact absurd hlow (by decide)
  refine ⟨natOfDigits (num.getD []), ?_⟩
  obtain ⟨c, cs, hcc⟩ := List.exists_cons_of_ne_nil hne
  subst hcc
  show (if (c :: cs).isEmpty = true then fallbackNumber num
      else some (normLetter (String.mk (lowers (c :: cs))), natOfDigits (num.getD []))) =
    some ("dev", natOfDigits (num.getD []))
  rw [if_neg (show ¬((c :: cs).isEmpty = true) from Bool.false_ne_true), hlow]
  rfl

theorem plv_none_num {ds : List Char} (hne : ds.isEmpty = false) :
    _parse_letter_version none (some ds) = some ("post", natOfDigits ds) := by
  show (if ds.isEmpty = true then none else some ("post", natOfDigits ds)) =
    some ("post", natOfDigits ds)
  rw [if_neg (by rw [hne]; exact Bool.false_ne_true)]

theorem plv_canon_a (n : Nat) :
    _parse_letter_version (some ['a']) (some (natRepr n)) = some ("a", n) := by
  show (if (['a'] : List Char).isEmpty = true then fallbackNumber (some (natRepr n))
      else some (normLetter (String.mk (lowers ['a'])),
        natOfDigits ((some (natRepr n)).getD []))) = some ("a", n)
  rw [if_neg (show ¬(([('a' : Char)] : List Char).isEmpty = true) from Bool.false_ne_true)]
  rw [show normLetter (String.mk (lowers ['a'])) = "a" from by decide]
  show some ("a", natOfDigits (natRepr n)) = some ("a", n)
  rw [natOfDigits_natRepr]

theorem plv_canon_b (n : Nat) :
    _parse_letter_version (some ['b']) (some (natRepr n)) = some ("b", n) := by
  show (if (['b'] : List Char).isEmpty = true then fallbackNumber (some (natRepr n))
      else some (normLetter (String.mk (lowers ['b'])),
        natOfDigits ((some (natRepr n)).getD []))) = some ("b", n)
  rw [if_neg (show ¬(([('b' : Char)] : List Char).isEmpty = true) from Bool.false_ne_true)]
  rw [show normLetter (String.mk (lowers ['b'])) = "b" from by decide]
  show some ("b", natOfDigits (natRepr n)) = some ("b", n)
  rw [natOfDigits_natRepr]

theorem plv_canon_rc (n : Nat) :
    _parse_letter_version (some ['r','c']) (some (natRepr n)) = some ("rc", n) := by
  show (if (['r','c'] : List Char).isEmpty = true then fallbackNumber (some (natRepr n))
      else some (normLetter (String.mk (lowers ['r','c'])),
        natOfDigits ((some (natRepr n)).getD []))) = some ("rc", n)
  rw [if_neg (show ¬((['r','c'] : List Char).isEmpty = true) from Bool.false_ne_true)]
  rw [show normLetter (String.mk (lowers ['r','c'])) = "rc" from by decide]
  show some ("rc", natOfDigits (natRepr n)) = some ("rc", n)
  rw [natOfDigits_natRepr]

theorem plv_canon_m (n : Nat) :
    _parse_letter_version (some ['m']) (some (natRepr n)) = some ("m", n) := by
  show (if (['m'] : List Char).isEmpty = true then fallbackNumber (some (natRepr n))
      else some (normLetter (String.mk (lowers ['m'])),
        natOfDigits ((some (natRepr n)).getD []))) = some ("m", n)
  rw [if_neg (show ¬(([('m' : Char)] : List Char).isEmpty = true) from Bool.false_ne_true)]
  rw [show normLetter (String.mk (lowers ['m'])) = "m" from by decide]
  show some ("m", natOfDigits (natRepr n)) = some ("m", n)
  rw [natOfDigits_natRepr]

theorem plv_canon_post (n : Nat) :
    _parse_letter_version (some ['p','o','s','t']) (some (natRepr n)) = some ("post", n) := by
  show (if (['p','o','s','t'] : List Char).isEmpty = true then fallbackNumber (some (natRepr n))
      else some (normLetter (String.mk (lowers ['p','o','s','t'])),
        natOfDigits ((some (natRepr n)).getD []))) = some ("post", n)
  rw [if_neg (show ¬((['p','o','s','t'] : List Char).isEmpty = true) from Bool.false_ne_true)]
  rw [show normLetter (String.mk (lowers ['p','o','s','t'])) = "post" from by decide]
  show some ("post", natOfDigits (natRepr n)) = some ("post", n)
  rw [natOfDigits_natRepr]

theorem plv_canon_dev (n : Nat) :
    _parse_letter_version (some ['d','e','v']) (some (natRepr n)) = some ("dev", n) := by
  show (if (['d','e','v'] : List Char).isEmpty = true then fallbackNumber (some (natRepr n))
      else some (normLetter (String.mk (lowers ['d','e','v'])),
        natOfDigits ((some (natRepr n)).getD []))) = some ("dev", n)
  rw [if_neg (show ¬((['d','e','v'] : List Char).isEmpty = true) from Bool.false_ne_true)]
  rw [show normLetter (String.mk (lowers ['d','e','v'])) = "dev" from by decide]
  show some ("dev", natOfDigits (natRepr n)) = some ("dev", n)
  rw [natOfDigits_natRepr]

theorem digit_not_space {c : Char} (h : c.isDigit = true) : isSpaceC c = false := by
  cases hs : isSpaceC c
  · rfl
  · rw [space_not_digit hs] at h
    cases h

theorem digit_not_v {c : Char} (h : c.isDigit = true) : (c == 'v' || c == 'V') = false := by
  cases hb : (c == 'v' || c == 'V')
  · rfl
  · rw [Bool.or_eq_true, beq_iff_eq, beq_iff_eq] at hb
    rcases hb with rfl | rfl <;> exact absurd h (by decide)

theorem dropWhile_nospace_head {c : Char} (h : isSpaceC c = false) (X : List Char) :
    (c :: X).dropWhile isSpaceC = c :: X := by
  rw [List.dropWhile_cons, if_neg (by rw [h]; exact Bool.false_ne_true)]

theorem vOpt_notv {c : Char} (h : (c == 'v' || c == 'V') = false) (X : List Char) :
    vOpt (c :: X) = c :: X := by
  show (if (c == 'v' || c == 'V') = true then X else c :: X) = c :: X
  rw [if_neg (by rw [h]; exact Bool.false_ne_true)]

/-! ### The canonical rendering of each group and its re-exploration -/

/-- The four suffix pieces of `Version.__str__` after the release. -/
def preStr (o : Option (String × Nat)) : List Char :=
  match o with
  | some (l, n) => l.data ++ natRepr n
  | none => []

def postStr (o : Option (String × Nat)) : List Char :=
  match o with
  | some (_, n) => ".post".data ++ natRepr n
  | none => []

def devStr (o : Option (String × Nat)) : List Char :=
  match o with
  | some (_, n) => ".dev".data ++ natRepr n
  | none => []

def varStr (o : Option String) : List Char :=
  match o with
  | some sv => '-' :: sv.data
  | none => []

/-- The field value `Version.__init__` computes from a raw optional group. -/
def plvOf (o : Option RawLN) : Option (String × Nat) :=
  _parse_letter_version (o.bind (·.letter)) (o.bind (·.num))

def renderTail (g : RawGroups) : List Char :=
  preStr (plvOf g.pre) ++ (postStr (plvOf g.post) ++ (devStr (plvOf g.dev) ++
    varStr (g.variant.map (fun cs => String.mk (stripDash cs)))))

theorem mkVersion_fields (rel : List Nat) (g : RawGroups) :
    mkVersion rel g = ⟨rel, plvOf g.pre, plvOf g.post, plvOf g.dev,
      g.variant.map (fun cs => String.mk (stripDash cs))⟩ := rfl

theorem mkVersion_eq_of_fields {rel : List Nat} {g g' : RawGroups}
    (h1 : plvOf g.pre = plvOf g'.pre) (h2 : plvOf g.post = plvOf g'.post)
    (h3 : plvOf g.dev = plvOf g'.dev) (h4 : g.variant = g'.variant) :
    mkVersion rel g = mkVersion rel g' := by
  rw [mkVersion_fields, mkVersion_fields, h1, h2, h3, h4]

theorem render_mkVersion (rel : List Nat) (g : RawGroups) :
    render (mkVersion rel g) = renderRelease rel ++ renderTail g := by
  unfold render renderTail
  simp only [List.append_assoc]
  rfl

theorem varStr_ndh (o : Option String) : NoDigitHead (varStr o) := by
  cases o with
  | none => exact trivial
  | some sv =>
    show ('-' : Char).isDigit = false
    decide

theorem devvar_ndh (o : Option (String × Nat)) (o' : Option String) :
    NoDigitHead (devStr o ++ varStr o') := by
  cases o with
  | none => exact varStr_ndh o'
  | some ln =>
    obtain ⟨l, n⟩ := ln
    show ('.' : Char).isDigit = false
    decide

theorem postdevvar_ndh (o o' : Option (String × Nat)) (o'' : Option String) :
    NoDigitHead (postStr o ++ (devStr o' ++ varStr o'')) := by
  cases o with
  | none => exact devvar_ndh o' o''
  | some ln =>
    obtain ⟨l, n⟩ := ln
    show ('.' : Char).isDigit = false
    decide

theorem tailCands_step_some {t Z : List Char} {p : RawLN}
    (hpre : preAttempt t = some (p, Z)) {w : Option RawLN × Option RawLN × Option (List Char)}
    (hpost : firstFull (postBlock Z) = some w) :
    firstFull (tailCands t) = some ⟨some p, w.1, w.2.1, w.2.2⟩ := by
  rw [firstFull_tailCands]
  unfold preCands groupCands
  rw [hpre]
  simp only [List.singleton_append, List.map_cons, List.map_nil]
  rw [firstSome_pair_eq, hpost]
  rfl

theorem tailCands_step_none {t : List Char} (hpre : preAttempt t = none)
    {w : Option RawLN × Option RawLN × Option (List Char)}
    (hpost : firstFull (postBlock t) = some w) :
    firstFull (tailCands t) = some ⟨none, w.1, w.2.1, w.2.2⟩ := by
  rw [firstFull_tailCands]
  unfold preCands groupCands
  rw [hpre]
  simp only [List.nil_append, List.map_cons, List.map_nil]
  rw [firstSome_singleton, hpost]
  rfl

theorem postBlock_canon_some (n : Nat) {rest : List Char} (hrest : NoDigitHead rest)
    {w : Option RawLN × Option (List Char)}
    (hdev : firstFull (devBlock rest) = some w) :
    firstFull (postBlock ('.' :: 'p' :: 'o' :: 's' :: 't' :: (natRepr n ++ rest))) =
      some (some ⟨some ['p','o','s','t'], some (natRepr n)⟩, w.1, w.2) := by
  rw [firstFull_postBlock, postCands_canon n hrest]
  simp only [List.map_cons, List.map_nil]
  rw [firstSome_pair_eq, hdev]
  rfl

theorem postBlock_dot_d {X : List Char} {w : Option RawLN × Option (List Char)}
    (hdev : firstFull (devBlock ('.' :: 'd' :: X)) = some w) :
    firstFull (postBlock ('.' :: 'd' :: X)) = some (none, w.1, w.2) := by
  rw [firstFull_postBlock, postCands_dot_d]
  simp only [List.map_cons, List.map_nil]
  rw [firstSome_singleton, hdev]
  rfl

theorem devBlock_canon_some (n : Nat) {rest : List Char} (hrest : NoDigitHead rest)
    {gv : Option (List Char)} (hvar : firstFull (varCands rest) = some gv) :
    firstFull (devBlock ('.' :: 'd' :: 'e' :: 'v' :: (natRepr n ++ rest))) =
      some (some ⟨some ['d','e','v'], some (natRepr n)⟩, gv) := by
  rw [firstFull_devBlock]
  unfold devCands groupCands
  rw [devAttempt_canon n hrest]
  simp only [List.singleton_append, List.map_cons, List.map_nil]
  rw [firstSome_pair_eq, hvar]
  rfl

theorem varCands_canon_some {raw r : List Char} (hva : varAttempt (raw ++ r) = some (raw, r))
    (hr : r.all isSpaceC = true) :
    firstFull (varCands raw) = some (some raw) := by
  rw [← firstFull_varCands_ws hr raw]
  unfold varCands groupCands
  rw [hva]
  show (if r.all isSpaceC = true then some (some raw)
      else if (raw ++ r).all isSpaceC = true then some none else none) = some (some raw)
  rw [if_pos hr]

/-! ### The round trip, level by level -/

theorem var_rt {X : List Char} {gv : Option (List Char)}
    (h : firstFull (varCands X) = some gv) :
    firstFull (varCands (varStr (gv.map (fun cs => String.mk (stripDash cs))))) = some gv ∧
    ∃ sp, sp.all isSpaceC = true ∧
      X = varStr (gv.map (fun cs => String.mk (stripDash cs))) ++ sp := by
  rcases varLevel_extract h with ⟨raw, r, hgv, hva, hr, hsplit⟩ | ⟨hgv, hX⟩
  · subst hgv
    obtain ⟨-, body, hbody⟩ := varAttempt_spec hva
    have hvs : varStr ((some raw).map (fun cs => String.mk (stripDash cs))) = raw := by
      show '-' :: (String.mk (stripDash raw)).data = raw
      rw [hbody]
      rfl
    rw [hvs]
    exact ⟨varCands_canon_some (hsplit ▸ hva) hr, r, hr, hsplit⟩
  · subst hgv
    rw [show varStr ((none : Option (List Char)).map (fun cs => String.mk (stripDash cs))) =
      [] from rfl]
    exact ⟨by decide, X, hX, rfl⟩

theorem dev_rt {Y : List Char} {gd : Option RawLN} {gv : Option (List Char)}
    (h : firstFull (devBlock Y) = some (gd, gv)) :
    ∃ w : Option RawLN × Option (List Char),
      firstFull (devBlock (devStr (plvOf gd) ++
        varStr (gv.map (fun cs => String.mk (stripDash cs))))) = some w ∧
      plvOf w.1 = plvOf gd ∧ w.2 = gv ∧
      (plvOf gd = none ∨ ∃ k, plvOf gd = some ("dev", k)) ∧
      (plvOf gd = none → ∃ sp, sp.all isSpaceC = true ∧
        Y = (devStr (plvOf gd) ++
          varStr (gv.map (fun cs => String.mk (stripDash cs)))) ++ sp) := by
  rcases devLevel_extract h with ⟨d, X, hgd, hda, hvarX⟩ | ⟨hgd, hvarY⟩
  · obtain ⟨hvren, sp0, hsp0, hXeq⟩ := var_rt hvarX
    obtain ⟨ltr, hdl, hlow⟩ := devAttempt_spec hda
    obtain ⟨k, hplv⟩ := @plv_of_dev_tok ltr d.num hlow
    have hplvOf : plvOf gd = some ("dev", k) := by
      rw [hgd]
      show _parse_letter_version d.letter d.num = some ("dev", k)
      rw [hdl]
      exact hplv
    rw [hplvOf]
    refine ⟨(some ⟨some ['d','e','v'], some (natRepr k)⟩, gv), ?_, ?_, rfl,
      Or.inr ⟨k, rfl⟩, ?_⟩
    · exact devBlock_canon_some k (varStr_ndh _) hvren
    · exact plv_canon_dev k
    · intro hno
      simp at hno
  · obtain ⟨hvren, sp0, hsp0, hYeq⟩ := var_rt hvarY
    have hplvOf : plvOf gd = none := by rw [hgd]; rfl
    rw [hplvOf]
    refine ⟨(none, gv), ?_, rfl, rfl, Or.inl rfl, ?_⟩
    · show firstFull (devBlock (varStr (gv.map (fun cs => String.mk (stripDash cs))))) =
        some (none, gv)
      rw [← firstFull_devBlock_ws hsp0, ← hYeq, ← hgd]
      exact h
    · intro _
      exact ⟨sp0, hsp0, hYeq⟩

theorem post_rt {Z : List Char} {gp gd : Option RawLN} {gv : Option (List Char)}
    (h : firstFull (postBlock Z) = some (gp, gd, gv)) :
    ∃ w : Option RawLN × Option RawLN × Option (List Char),
      firstFull (postBlock (postStr (plvOf gp) ++ (devStr (plvOf gd) ++
        varStr (gv.map (fun cs => String.mk (stripDash cs)))))) = some w ∧
      plvOf w.1 = plvOf gp ∧ plvOf w.2.1 = plvOf gd ∧ w.2.2 = gv ∧
      (plvOf gp = none ∨ ∃ m, plvOf gp = some ("post", m)) ∧
      (plvOf gd = none ∨ ∃ k, plvOf gd = some ("dev", k)) ∧
      (plvOf gp = none → plvOf gd = none → ∃ sp, sp.all isSpaceC = true ∧
        Z = (postStr (plvOf gp) ++ (devStr (plvOf gd) ++
          varStr (gv.map (fun cs => String.mk (stripDash cs))))) ++ sp) := by
  rcases postLevel_extract h with ⟨q, Y, hgp, halt, hdevY⟩ | ⟨hgp, hdevZ⟩
  · obtain ⟨w', hdevR, he1, he2, hDS, hcond⟩ := dev_rt hdevY
    have hplvOf : ∃ m, plvOf gp = some ("post", m) := by
      rcases halt with h1 | h2
      · obtain ⟨ds, hq1, hq2, hq3⟩ := postAlt1_spec h1
        refine ⟨natOfDigits ds, ?_⟩
        rw [hgp]
        show _parse_letter_version q.letter q.num = _
        rw [hq1, hq2]
        exact plv_none_num hq3
      · obtain ⟨tok, hmem, ltr, hql, hlow⟩ := postAlt2_spec h2
        obtain ⟨m, hplv⟩ := @plv_of_post_tok ltr q.num tok hmem hlow
        refine ⟨m, ?_⟩
        rw [hgp]
        show _parse_letter_version q.letter q.num = _
        rw [hql]
        exact hplv
    obtain ⟨m, hpm⟩ := hplvOf
    rw [hpm]
    refine ⟨(some ⟨some ['p','o','s','t'], some (natRepr m)⟩, w'.1, w'.2), ?_, ?_, he1, he2,
      Or.inr ⟨m, rfl⟩, hDS, ?_⟩
    · exact postBlock_canon_some m (devvar_ndh _ _) hdevR
    · exact plv_canon_post m
    · intro hno
      simp at hno
  · obtain ⟨w', hdevR, he1, he2, hDS, hcond⟩ := dev_rt hdevZ
    have hplvOf : plvOf gp = none := by rw [hgp]; rfl
    rw [hplvOf]
    rcases hDS with hds | ⟨k, hds⟩
    · obtain ⟨sp, hsp, hpos⟩ := hcond hds
      refine ⟨(none, gd, gv), ?_, rfl, rfl, rfl, Or.inl rfl, Or.inl hds, ?_⟩
      · show firstFull (postBlock (devStr (plvOf gd) ++
          varStr (gv.map (fun cs => String.mk (stripDash cs))))) = some (none, gd, gv)
        rw [← firstFull_postBlock_ws hsp, ← hpos, ← hgp]
        exact h
      · intro _ _
        exact ⟨sp, hsp, hpos⟩
    · rw [hds] at he1 hdevR ⊢
      refine ⟨(none, w'.1, w'.2), ?_, rfl, he1, he2, Or.inl rfl, Or.inr ⟨k, rfl⟩, ?_⟩
      · exact postBlock_dot_d hdevR
      · intro _ h2
        simp at h2

theorem varStr_relStop (o : Option String) : RelStop (varStr o) := by
  cases o with
  | none => exact trivial
  | some sv => exact ⟨by decide, fun hc => absurd hc (by decide)⟩

theorem tail_rt {t : List Char} {g : RawGroups}
    (h : firstFull (tailCands t) = some g) :
    ∃ g' : RawGroups,
      firstFull (tailCands (renderTail g)) = some g' ∧
      plvOf g'.pre = plvOf g.pre ∧ plvOf g'.post = plvOf g.post ∧
      plvOf g'.dev = plvOf g.dev ∧ g'.variant = g.variant ∧ RelStop (renderTail g) := by
  unfold renderTail
  rcases tailLevel_extract h with ⟨p, Z, hgpre, hpa, hpb⟩ | ⟨hgpre, hpb⟩
  · obtain ⟨w, hpostR, e1, e2, e3, PS, DS, cond⟩ := post_rt hpb
    obtain ⟨tok, hmem, ltr, hpl, hlow⟩ := preAttempt_spec hpa
    obtain ⟨l₀, n₀, hplv, hl4⟩ := @plv_of_pre_tok ltr p.num tok hmem hlow
    have hplvOf : plvOf g.pre = some (l₀, n₀) := by
      rw [hgpre]
      show _parse_letter_version p.letter p.num = some (l₀, n₀)
      rw [hpl]
      exact hplv
    rw [hplvOf]
    rcases hl4 with rfl | rfl | rfl | rfl
    · refine ⟨⟨some ⟨some ['a'], some (natRepr n₀)⟩, w.1, w.2.1, w.2.2⟩, ?_, ?_, e1, e2, e3, ?_⟩
      · exact tailCands_step_some (preAttempt_canon_a n₀ (postdevvar_ndh _ _ _)) hpostR
      · exact plv_canon_a n₀
      · exact ⟨by decide, fun hc => absurd hc (by decide)⟩
    · refine ⟨⟨some ⟨some ['b'], some (natRepr n₀)⟩, w.1, w.2.1, w.2.2⟩, ?_, ?_, e1, e2, e3, ?_⟩
      · exact tailCands_step_some (preAttempt_canon_b n₀ (postdevvar_ndh _ _ _)) hpostR
      · exact plv_canon_b n₀
      · exact ⟨by decide, fun hc => absurd hc (by decide)⟩
    · refine ⟨⟨some ⟨some ['r','c'], some (natRepr n₀)⟩, w.1, w.2.1, w.2.2⟩, ?_, ?_, e1, e2, e3, ?_⟩
      · exact tailCands_step_some (preAttempt_canon_rc n₀ (postdevvar_ndh _ _ _)) hpostR
      · exact plv_canon_rc n₀
      · exact ⟨by decide, fun hc => absurd hc (by decide)⟩
    · refine ⟨⟨some ⟨some ['m'], some (natRepr n₀)⟩, w.1, w.2.1, w.2.2⟩, ?_, ?_, e1, e2, e3, ?_⟩
      · exact tailCands_step_some (preAttempt_canon_m n₀ (postdevvar_ndh _ _ _)) hpostR
      · exact plv_canon_m n₀
      · exact ⟨by decide, fun hc => absurd hc (by decide)⟩
  · obtain ⟨w, hpostR, e1, e2, e3, PS, DS, cond⟩ := post_rt hpb
    have hplvOf : plvOf g.pre = none := by rw [hgpre]; rfl
    rw [hplvOf]
    rcases PS with hps | ⟨m, hps⟩
    · rcases DS with hds | ⟨k, hds⟩
      · obtain ⟨sp, hsp, hpos⟩ := cond hps hds
        refine ⟨g, ?_, hplvOf, rfl, rfl, rfl, ?_⟩
        · show firstFull (tailCands (postStr (plvOf g.post) ++ (devStr (plvOf g.dev) ++
            varStr (g.variant.map (fun cs => String.mk (stripDash cs)))))) = some g
          rw [← firstFull_tailCands_ws hsp, ← hpos]
          exact h
        · rw [hps, hds]
          exact varStr_relStop _
      · rw [hps, hds] at hpostR ⊢
        refine ⟨⟨none, w.1, w.2.1, w.2.2⟩, ?_, rfl, e1.trans hps, e2.trans hds, e3, ?_⟩
        · exact tailCands_step_none (preAttempt_dot_d _) hpostR
        · exact ⟨by decide, fun _ => show ('d' : Char).isDigit = false by decide⟩
    · rw [hps] at hpostR ⊢
      refine ⟨⟨none, w.1, w.2.1, w.2.2⟩, ?_, rfl, e1.trans hps, e2, e3, ?_⟩
      · exact tailCands_step_none (preAttempt_dot_p _) hpostR
      · exact ⟨by decide, fun _ => show ('p' : Char).isDigit = false by decide⟩

theorem parseRelease_nonempty {s : List Char} {rel : List Nat × List Char}
    (h : parseRelease s = some rel) : rel.1 ≠ [] := by
  simp only [parseRelease] at h
  split_ifs at h with hde
  have hinj := Option.some.inj h
  intro hcon
  rw [← hinj] at hcon
  exact List.cons_ne_nil _ _ hcon

/-- Re-parsing the canonical rendering of any parsed version reproduces it. -/
theorem parseChars_render {s : List Char} {v : Version}
    (h : parseChars s = some v) : parseChars (render v) = some v := by
  unfold parseChars at h
  cases hrel : parseRelease (vOpt (s.dropWhile isSpaceC)) with
  | none =>
    rw [hrel] at h
    exact Option.noConfusion h
  | some rel =>
    obtain ⟨relNums, t_s⟩ := rel
    rw [hrel] at h
    have h2 : (match firstFull (tailCands t_s) with
      | some g0 => some (mkVersion relNums g0)
      | none => none) = some v := h
    cases hff : firstFull (tailCands t_s) with
    | none =>
      rw [hff] at h2
      exact Option.noConfusion h2
    | some g =>
      rw [hff] at h2
      have hv : mkVersion relNums g = v := Option.some.inj h2
      subst hv
      have hrelne : relNums ≠ [] := parseRelease_nonempty hrel
      obtain ⟨g', hg', he1, he2, he3, he4, he5⟩ := tail_rt hff
      rw [render_mkVersion]
      unfold parseChars
      obtain ⟨x, xs, hxs⟩ : ∃ x xs, relNums = x :: xs := by
        cases relNums with
        | nil => exact absurd rfl hrelne
        | cons a as => exact ⟨a, as, rfl⟩
      obtain ⟨d0, ds0, hd0, hdig0⟩ := natRepr_head_digit x
      have hcons : renderRelease relNums ++ renderTail g =
          d0 :: (ds0 ++ (xs.flatMap (fun y => '.' :: natRepr y) ++ renderTail g)) := by
        rw [hxs]
        show (natRepr x ++ xs.flatMap (fun y => '.' :: natRepr y)) ++ renderTail g = _
        rw [hd0, List.cons_append, List.cons_append, List.append_assoc]
      rw [hcons, dropWhile_nospace_head (digit_not_space hdig0),
        vOpt_notv (digit_not_v hdig0), ← hcons]
      rw [parseRelease_render hrelne he5]
      show (match firstFull (tailCands (renderTail g)) with
        | some g0 => some (mkVersion relNums g0)
        | none => none) = some (mkVersion relNums g)
      rw [hg']
      show some (mkVersion relNums g') = some (mkVersion relNums g)
      exact congrArg some (mkVersion_eq_of_fields he1 he2 he3 he4)

/-- **C4**: Round-trip stability.  For every version string `s` the Version
Model's `parse` accepts, re-parsing the canonical rendering `str(...)` of the
parsed version (`Version.__str__`) yields back exactly the same version, so
`parse(str(parse(s))) == parse(s)` — the canonical form is stable modulo the
stripped leading `v`, the case-normalised and alias-normalised letters, and
stripped whitespace. -/
theorem C4_roundtrip_stability {s : String} {v : Version} (h : parse s = some v) :
    parse (String.mk (render v)) = some v :=
  parseChars_render h

theorem C4_roundtrip_stability_witness :
    parse " V1.2.0.0PRE8-foo.bar_1 " =
      some ⟨[1, 2, 0, 0], some ("rc", 8), none, none, some "foo.bar_1"⟩ ∧
    parse (String.mk (render (⟨[1, 2, 0, 0], some ("rc", 8), none, none,
        some "foo.bar_1"⟩ : Version))) =
      some ⟨[1, 2, 0, 0], some ("rc", 8), none, none, some "foo.bar_1"⟩ :=
  ⟨by decide, @C4_roundtrip_stability " V1.2.0.0PRE8-foo.bar_1 "
    ⟨[1, 2, 0, 0], some ("rc", 8), none, none, some "foo.bar_1"⟩ (by decide)⟩

end PVC
